import Mathlib

/-!
Verification development for the sequence-aware cache and pagination engine
of TagStudio (src/tagstudio/core/utils/sequences.py, class SequenceRegistry).

The Python source is shallowly embedded below:

* `seqMatch` embeds the regular expression
  `SEQUENCE_RE = ^(.*?)[._-](\d{3,6})$` together with `match.group(1)` and
  `match.group(2)` extraction.  Because the 3-6 character digit run cannot
  contain a separator character, the split the lazy regex finds is the unique
  one; `seqMatch` scans for the leftmost valid split exactly as the lazy
  quantifier does.  `\d` is modelled as the ASCII decimal digits.
* `globMatch` embeds the semantics of the SQLite GLOB operator that
  `_query_sequence_siblings` applies server-side (literal characters,
  `*`, `?`, and `[...]` classes with ranges and `^` negation, matched
  case-sensitively against the whole path string).  It is written with an
  explicit fuel argument (`pattern length + string length` always suffices,
  since every step consumes pattern or string) so that it stays structurally
  recursive and computable by the kernel.
* The collaborator `Store` is the record store of the spec: an ordered list
  of records together with a flag `queryExc` that makes the pattern query
  raise, mirroring the `except Exception` handler in
  `_query_sequence_siblings`.  `getEntry`, `getBatch`, `searchLibrary` and
  `entriesCount` follow the spec interface of the external Store.
* `RegState` carries `_sequence_cache`, `_cache_access_order`,
  `_cache_max_size` and `_progressive_cache`.  Python dicts are embedded as
  association lists with unique keys (key order is never observed by the
  source).
-/

/-- Separator characters accepted by `SEQUENCE_RE` between base and digits. -/
def isSep (c : Char) : Bool := c = '.' || c = '_' || c = '-'

/-- One maximal digit-run check: the candidate frame-number suffix of the
regex, `\d{3,6}` anchored at the end of the stem. -/
def isFrameRun (d : List Char) : Bool :=
  d.all Char.isDigit && decide (3 ≤ d.length) && decide (d.length ≤ 6)

/-- Scan for the leftmost split `acc.reverse ++ c :: rest` with `c` a
separator and `rest` a 3-6 digit run ending the stem; mirrors the lazy
group of `SEQUENCE_RE`. -/
def seqMatchAux : List Char → List Char → Option (List Char × List Char)
  | _, [] => none
  | acc, c :: rest =>
    if isSep c && isFrameRun rest then some (acc.reverse, rest)
    else seqMatchAux (c :: acc) rest

/-- `SEQUENCE_RE.match(stem)`: `some (base, digits)` on a match (groups 1
and 2), `none` otherwise. -/
def seqMatch (stem : List Char) : Option (List Char × List Char) :=
  seqMatchAux [] stem

/-- Scan of one GLOB `[...]` class body against the character `ch`,
following the SQLite matcher: ranges `a-b` (only with a recorded prior
character and a following character that is not `]`), ordinary members,
and failure on an unterminated class. Returns the accumulated `seen` flag
and the pattern rest after the closing `]`. -/
def classLoop (ch : Char) : List Char → Bool → Option Char → Option (Bool × List Char)
  | [], _, _ => none
  | ']' :: rest, seen, _ => some (seen, rest)
  | '-' :: hi :: rest2, seen, some lo =>
    if hi = ']' then classLoop ch (hi :: rest2) (seen || ch = '-') (some '-')
    else
      classLoop ch rest2
        (seen || (decide (lo.toNat ≤ ch.toNat) && decide (ch.toNat ≤ hi.toNat))) none
  | c :: rest, seen, _ => classLoop ch rest (seen || ch = c) (some c)

/-- The optional leading `^` of a GLOB class: the negation flag and the
class body after it. -/
def classInv (p : List Char) : Bool × List Char :=
  match p with
  | '^' :: r => (true, r)
  | _ => (false, p)

/-- A leading `]` right after `[` (or `[^`) is a literal class member. -/
def classFirst (ch : Char) (p : List Char) : Bool × List Char :=
  match p with
  | ']' :: r => (ch = ']', r)
  | _ => (false, p)

/-- Match `ch` against a class whose body is `p` (the pattern after `[`):
handles the optional leading `^` negation and a leading literal `]`.
Returns `none` when the class is unterminated (which never matches). -/
def classMatch (ch : Char) (p : List Char) : Option (Bool × List Char) :=
  let inv := classInv p
  let fst := classFirst ch inv.2
  match classLoop ch fst.2 fst.1 none with
  | none => none
  | some (seen, rest) => some (xor seen inv.1, rest)

/-- GLOB matching with explicit fuel; every recursive call shrinks
`pattern length + string length`, so fuel `|p| + |s| + 1` always suffices. -/
def globMatchF : Nat → List Char → List Char → Bool
  | 0, _, _ => false
  | _ + 1, [], s => s.isEmpty
  | fuel + 1, c :: p, s =>
    if c = '*' then
      globMatchF fuel p s ||
        (match s with
         | [] => false
         | _ :: s2 => globMatchF fuel (c :: p) s2)
    else if c = '?' then
      match s with
      | [] => false
      | _ :: s2 => globMatchF fuel p s2
    else if c = '[' then
      match s with
      | [] => false
      | ch :: s2 =>
        match classMatch ch p with
        | none => false
        | some (ok, prest) => ok && globMatchF fuel prest s2
    else
      match s with
      | [] => false
      | ch :: s2 => (c = ch) && globMatchF fuel p s2

/-- The SQLite GLOB test `string GLOB pattern` used by the sibling query. -/
def globMatch (p s : List Char) : Bool :=
  globMatchF (p.length + s.length + 1) p s

/-- Lexicographic comparison of strings by Unicode code point, the order
used both by `ORDER BY path` on the path column and by `pathlib.Path`
comparison (`min(..., key=lambda e: e.path)`). -/
def strLt : List Char → List Char → Bool
  | [], [] => false
  | [], _ :: _ => true
  | _ :: _, [] => false
  | a :: as, b :: bs => if a = b then strLt as bs else decide (a.toNat < b.toNat)

/-- A record of the Store: stable identifier plus the components of its
path (parent directory, stem, and suffix, per `pathlib`). -/
structure Entry where
  id : Nat
  parent : String
  stem : String
  ext : String
deriving DecidableEq, Inhabited

/-- The full path string of a record as stored in the path column:
`parent/stem+ext`, with no prefix for a bare name (parent `.`). -/
def pathStr (e : Entry) : String :=
  if e.parent = "." || e.parent = "" then e.stem ++ e.ext
  else e.parent ++ "/" ++ e.stem ++ e.ext

/-- `a` is path-before-or-equal `b`. -/
def pathLe (a b : Entry) : Bool := !(strLt (pathStr b).data (pathStr a).data)

/-- Insert into a path-sorted list (used to model `ORDER BY path`). -/
def insertByPath (e : Entry) : List Entry → List Entry
  | [] => [e]
  | x :: xs => if pathLe e x then e :: x :: xs else x :: insertByPath e xs

/-- Sort records by path string, modelling the SQL `ORDER BY path`. -/
def sortByPath : List Entry → List Entry
  | [] => []
  | x :: xs => insertByPath x (sortByPath xs)

/-- `min(entries, key=lambda e: e.path)` over a nonempty tail, Python
semantics: keep the earlier element unless a strictly smaller key appears. -/
def pyMinFold : Entry → List Entry → Entry
  | best, [] => best
  | best, x :: xs =>
    pyMinFold (if strLt (pathStr x).data (pathStr best).data then x else best) xs

/-- `min(entries, key=lambda e: e.path)`; the source only applies it to
lists of length > 1, the `[]` case returns a junk record. -/
def pyMinByPath : List Entry → Entry
  | [] => default
  | x :: xs => pyMinFold x xs

/-- The collaborator Store of the spec: an ordered list of records (stable
order by identifier) plus a failure flag for the pattern query. -/
structure Store where
  entries : List Entry
  queryExc : Bool := false
deriving DecidableEq

/-- `Store.get(id)`: fetch one record by identifier, `none` when absent. -/
def Store.getEntry (st : Store) (i : Nat) : Option Entry :=
  st.entries.find? (fun e => e.id = i)

/-- The record list the GLOB query `ORDER BY path` returns for `pat`. -/
def Store.globList (st : Store) (pat : String) : List Entry :=
  sortByPath (st.entries.filter (fun e => globMatch pat.data (pathStr e).data))

/-- `match_path_pattern`: the server-side GLOB query; raises when
`queryExc` is set. -/
def Store.globQuery (st : Store) (pat : String) : Except Unit (List Entry) :=
  if st.queryExc then Except.error () else Except.ok (st.globList pat)

/-- `get_batch(offset, limit)`: ordered batch by offset and limit. -/
def Store.getBatch (st : Store) (offset limit : Nat) : List Entry :=
  (st.entries.drop offset).take limit

/-- `search_library(browsing_state, limit)`: filtered, ordered result set. -/
def Store.searchLibrary (st : Store) (f : Entry → Bool) (limit : Nat) : List Entry :=
  (st.entries.filter f).take limit

/-- `entries_count`. -/
def Store.entriesCount (st : Store) : Nat := st.entries.length

/-- Association-list lookup (Python `dict` access / `in`). -/
def alLookup {β : Type} (k : Nat) : List (Nat × β) → Option β
  | [] => none
  | (k2, v) :: r => if k2 = k then some v else alLookup k r

/-- Association-list update `d[k] = v` (replaces in place or appends). -/
def alInsert {β : Type} (k : Nat) (v : β) : List (Nat × β) → List (Nat × β)
  | [] => [(k, v)]
  | (k2, v2) :: r => if k2 = k then (k, v) :: r else (k2, v2) :: alInsert k v r

/-- Association-list removal `d.pop(k, None)`. -/
def alErase {β : Type} (k : Nat) : List (Nat × β) → List (Nat × β)
  | [] => []
  | (k2, v2) :: r => if k2 = k then r else (k2, v2) :: alErase k r

/-- The mutable state of `SequenceRegistry`: `_sequence_cache`,
`_cache_access_order`, `_cache_max_size` and `_progressive_cache`. -/
structure RegState where
  seqCache : List (Nat × List Nat) := []
  accessOrder : List Nat := []
  cacheMax : Nat := 10000
  progCache : List (Nat × (List Entry × List (Option Nat))) := []
deriving DecidableEq

/-- A freshly constructed registry with the given capacity. -/
def freshReg (cap : Nat) : RegState := { cacheMax := cap }

/-- The eviction loop of `_add_to_cache`: `evict_count` times, pop the
front of the access order (when nonempty) and drop its cache entry. -/
def evictLoop : Nat → RegState → RegState
  | 0, st => st
  | n + 1, st =>
    match st.accessOrder with
    | [] => evictLoop n st
    | old :: rest =>
      evictLoop n { st with accessOrder := rest, seqCache := alErase old st.seqCache }

/-- The insertion loop of `_add_to_cache`: map every id of the batch to the
full batch and append it to the access order when not yet present. -/
def insertLoop (all : List Nat) : List Nat → RegState → RegState
  | [], st => st
  | eid :: rest, st =>
    insertLoop all rest
      { st with
        seqCache := alInsert eid all st.seqCache,
        accessOrder := if eid ∈ st.accessOrder then st.accessOrder
                       else st.accessOrder ++ [eid] }

/-- `_add_to_cache(entry_ids)`. -/
def addToCache (st : RegState) (entryIds : List Nat) : RegState :=
  let st1 :=
    if st.cacheMax < st.seqCache.length + entryIds.length then
      evictLoop entryIds.length st
    else st
  insertLoop entryIds entryIds st1

/-- The server-side GLOB pattern `_query_sequence_siblings` builds: the
parent directory (empty for `.`), the base name, and the suffix shape
`[._-][0-9][0-9][0-9]*` - a separator, three digits, then anything. -/
def globPattern (parent baseName : String) : String :=
  let parentPath := if parent = "." then "" else parent
  if parentPath = "" then baseName ++ "[._-][0-9][0-9][0-9]*"
  else parentPath ++ "/" ++ baseName ++ "[._-][0-9][0-9][0-9]*"

/-- `_query_sequence_siblings(entry, base_name)`: build the GLOB pattern
from parent directory and base name and run it, returning `[]` on a
database error. -/
def querySiblings (store : Store) (entry : Entry) (baseName : String) : List Entry :=
  match store.globQuery (globPattern entry.parent baseName) with
  | Except.error _ => []
  | Except.ok es => es

/-- `get_complete_sequence(entry)`, additionally reporting how many
pattern-match queries the call sent to the Store.  The body is total: the
only fallible Store call is the sibling query, whose failure
`_query_sequence_siblings` already converts to `[]`, so the outer
`except Exception` handler of the source is never reached. -/
def getCompleteSequenceQ (st : RegState) (store : Store) (entry : Entry) :
    (List Entry × RegState) × Nat :=
  match alLookup entry.id st.seqCache with
  | some ids =>
    let st2 := { st with accessOrder := st.accessOrder.erase entry.id ++ [entry.id] }
    (((ids.map store.getEntry).filterMap id, st2), 0)
  | none =>
    match seqMatch entry.stem.data with
    | none => (([entry], addToCache st [entry.id]), 0)
    | some (baseL, _) =>
      let seqEntries := querySiblings store entry (String.mk baseL)
      if seqEntries = [] then (([entry], addToCache st [entry.id]), 1)
      else ((seqEntries, addToCache st (seqEntries.map (fun e => e.id))), 1)

/-- `get_complete_sequence(entry)` (result list and updated state). -/
def getCompleteSequence (st : RegState) (store : Store) (entry : Entry) :
    List Entry × RegState :=
  (getCompleteSequenceQ st store entry).1

/-- `get_complete_sequence` wrapped in the `try`/`except` of the source,
modelled as `Except`.  Since the embedded body is total (see
`getCompleteSequenceQ`), the handler that would return `[entry]` is dead
and the result is always `ok`. -/
def getCompleteSequenceE (st : RegState) (store : Store) (entry : Entry) :
    Except Unit (List Entry × RegState) :=
  Except.ok (getCompleteSequence st store entry)

/-- `ids_for_poster(entry_id)`. -/
def idsForPoster (st : RegState) (store : Store) (entryId : Nat) :
    List Nat × RegState :=
  match alLookup entryId st.seqCache with
  | some ids => (ids, st)
  | none =>
    match store.getEntry entryId with
    | some entry =>
      let r := getCompleteSequence st store entry
      (r.1.map (fun e => e.id), r.2)
    | none => ([entryId], st)

/-- `clear_cache()`. -/
def clearCache (st : RegState) : RegState :=
  { st with seqCache := [], accessOrder := [], progCache := [] }

/-! ### Properties of the pattern matcher `seqMatch` -/

theorem isSep_elim {c : Char} (h : isSep c = true) : c = '.' ∨ c = '_' ∨ c = '-' := by
  simp [isSep] at h
  tauto

theorem sep_not_digit {c : Char} (h : isSep c = true) : c.isDigit = false := by
  rcases isSep_elim h with h | h | h <;> subst h <;> decide

theorem seqMatchAux_sound {d b : List Char} :
    ∀ (cs acc : List Char), seqMatchAux acc cs = some (b, d) →
      ∃ pre c, cs = pre ++ c :: d ∧ b = acc.reverse ++ pre ∧
        isSep c = true ∧ isFrameRun d = true := by
  intro cs
  induction cs with
  | nil => intro acc h; simp [seqMatchAux] at h
  | cons c rest ih =>
    intro acc h
    by_cases hc : (isSep c && isFrameRun rest) = true
    · rw [seqMatchAux, if_pos hc] at h
      simp only [Option.some.injEq, Prod.mk.injEq] at h
      obtain ⟨hb, hd⟩ := h
      rw [Bool.and_eq_true] at hc
      exact ⟨[], c, by rw [hd]; rfl, by simp [hb], hc.1, by rw [← hd]; exact hc.2⟩
    · rw [seqMatchAux, if_neg hc] at h
      obtain ⟨pre, c2, hrest, hb, hsep, hrun⟩ := ih (c :: acc) h
      exact ⟨c :: pre, c2, by simp [hrest], by simp [hb], hsep, hrun⟩

theorem seqMatch_sound {stem b d : List Char} (h : seqMatch stem = some (b, d)) :
    ∃ c, stem = b ++ c :: d ∧ isSep c = true ∧ isFrameRun d = true := by
  obtain ⟨pre, c, hcs, hb, hsep, hrun⟩ := seqMatchAux_sound stem [] h
  simp at hb
  exact ⟨c, by simp [hcs, hb], hsep, hrun⟩

theorem seqMatchAux_complete {c : Char} {d : List Char}
    (hsep : isSep c = true) (hrun : isFrameRun d = true) :
    ∀ (b acc : List Char), (seqMatchAux acc (b ++ c :: d)).isSome = true := by
  intro b
  induction b with
  | nil =>
    intro acc
    simp only [List.nil_append, seqMatchAux, hsep, hrun, Bool.and_self, if_pos]
    simp
  | cons x b2 ih =>
    intro acc
    simp only [List.cons_append, seqMatchAux]
    by_cases hx : (isSep x && isFrameRun (b2 ++ c :: d)) = true
    · simp [hx]
    · simpa [hx] using ih (x :: acc)

/-- A valid split of a stem (separator followed by an all-digit tail) is
unique, because the digit run cannot contain a separator character. -/
theorem seq_split_unique :
    ∀ (b1 b2 : List Char) {c1 c2 : Char} {d1 d2 : List Char},
      b1 ++ c1 :: d1 = b2 ++ c2 :: d2 →
      isSep c1 = true → isSep c2 = true →
      d1.all Char.isDigit = true → d2.all Char.isDigit = true →
      b1 = b2 ∧ c1 = c2 ∧ d1 = d2 := by
  intro b1
  induction b1 with
  | nil =>
    intro b2 c1 c2 d1 d2 h hs1 hs2 hd1 hd2
    cases b2 with
    | nil => simpa using h
    | cons y b3 =>
      simp at h
      obtain ⟨hcy, hd⟩ := h
      have hc2 : c2 ∈ d1 := by simp [hd]
      have := List.all_eq_true.mp hd1 c2 hc2
      rw [sep_not_digit hs2] at this
      cases this
  | cons x b1t ih =>
    intro b2 c1 c2 d1 d2 h hs1 hs2 hd1 hd2
    cases b2 with
    | nil =>
      simp at h
      obtain ⟨hcy, hd⟩ := h
      have hc1 : c1 ∈ d2 := by simp [← hd]
      have := List.all_eq_true.mp hd2 c1 hc1
      rw [sep_not_digit hs1] at this
      cases this
    | cons y b2t =>
      simp only [List.cons_append, List.cons.injEq] at h
      obtain ⟨hxy, ht⟩ := h
      obtain ⟨hb, hc, hd⟩ := ih b2t ht hs1 hs2 hd1 hd2
      exact ⟨by rw [hxy, hb], hc, hd⟩

/-- Full characterization of `SEQUENCE_RE`: a stem yields `(base, digits)`
exactly when it is `base ++ separator ++ digits` with a mandatory
separator (`.`, `_` or `-`) and 3-6 decimal digits ending the stem. -/
theorem seqMatch_eq_some_iff {stem b d : List Char} :
    seqMatch stem = some (b, d) ↔
      ∃ c, isSep c = true ∧ d.all Char.isDigit = true ∧
        3 ≤ d.length ∧ d.length ≤ 6 ∧ stem = b ++ c :: d := by
  constructor
  · intro h
    obtain ⟨c, hcs, hsep, hrun⟩ := seqMatch_sound h
    rw [isFrameRun, Bool.and_eq_true, Bool.and_eq_true, decide_eq_true_eq,
      decide_eq_true_eq] at hrun
    exact ⟨c, hsep, hrun.1.1, hrun.1.2, hrun.2, hcs⟩
  · rintro ⟨c, hsep, hdig, h3, h6, hcs⟩
    have hrun : isFrameRun d = true := by simp [isFrameRun, hdig, h3, h6]
    have hsome := seqMatchAux_complete hsep hrun b []
    rw [← hcs] at hsome
    obtain ⟨⟨b2, d2⟩, hb2⟩ := Option.isSome_iff_exists.mp hsome
    obtain ⟨c2, hcs2, hsep2, hrun2⟩ := seqMatch_sound hb2
    have hd2 : d2.all Char.isDigit = true := by
      rw [isFrameRun, Bool.and_eq_true, Bool.and_eq_true] at hrun2
      exact hrun2.1.1
    have heq : b2 ++ c2 :: d2 = b ++ c :: d := by rw [← hcs2, hcs]
    obtain ⟨hb, hc, hd⟩ := seq_split_unique b2 b heq hsep2 hsep hd2 hdig
    rw [seqMatch, hb2, hb, hd]

/-- C2 (counterexample): the claim says the separator is optional, so that
a stem like "shot0001" (3-6 digit suffix with no separator) matches; in
the source the regex requires one of `.`, `_`, `-` before the digits, so
"shot0001" does not match even though its suffix "0001" is a digit run. -/
theorem c2_counterexample :
    seqMatch "shot0001".data = none ∧ "0001".data.all Char.isDigit = true := by
  decide

/-- C2 (amended): the sequence pattern matcher accepts a stem iff it ends
in a MANDATORY separator (`.`, `_`, or `-`) followed by 3-6 decimal
digits; on acceptance the extracted base is everything before the numeric
suffix with the separator removed. -/
theorem c2_separator_mandatory (stem b d : List Char) :
    seqMatch stem = some (b, d) ↔
      ∃ c, isSep c = true ∧ d.all Char.isDigit = true ∧
        3 ≤ d.length ∧ d.length ≤ 6 ∧ stem = b ++ c :: d :=
  seqMatch_eq_some_iff

/-! ### The eviction policy of `_add_to_cache` (C4) -/

/-- The eviction phase as the claim describes it: when the incoming batch
would overflow the capacity, drop `min (batch length) (ledger length)`
identifiers from the front of the access ledger and remove their cache
entries; otherwise change nothing. -/
def evictPhaseSpec (st : RegState) (n : Nat) : RegState :=
  if st.cacheMax < st.seqCache.length + n then
    let m := min n st.accessOrder.length
    { st with
      accessOrder := st.accessOrder.drop m,
      seqCache := (st.accessOrder.take m).foldl (fun c k => alErase k c) st.seqCache }
  else st

/-- `_add_to_cache` as the claim describes it: the eviction phase above,
then the insertion of the batch. -/
def addToCacheSpec (st : RegState) (entryIds : List Nat) : RegState :=
  insertLoop entryIds entryIds (evictPhaseSpec st entryIds.length)

theorem evictLoop_empty {n : Nat} {st : RegState} (h : st.accessOrder = []) :
    evictLoop n st = st := by
  induction n with
  | zero => rfl
  | succ n ih => rw [evictLoop, h]; exact ih

theorem evictLoop_eq_spec (n : Nat) :
    ∀ st : RegState,
      evictLoop n st =
        { st with
          accessOrder := st.accessOrder.drop (min n st.accessOrder.length),
          seqCache := (st.accessOrder.take (min n st.accessOrder.length)).foldl
            (fun c k => alErase k c) st.seqCache } := by
  induction n with
  | zero => intro st; simp [evictLoop]
  | succ n ih =>
    rintro ⟨sc, ao, cm, pc⟩
    cases ao with
    | nil =>
      rw [show evictLoop (n + 1) ⟨sc, [], cm, pc⟩ = evictLoop n ⟨sc, [], cm, pc⟩ from rfl,
        evictLoop_empty rfl]
      simp
    | cons old rest =>
      rw [show evictLoop (n + 1) ⟨sc, old :: rest, cm, pc⟩ =
            evictLoop n ⟨alErase old sc, rest, cm, pc⟩ from rfl,
        ih ⟨alErase old sc, rest, cm, pc⟩]
      simp [Nat.succ_min_succ]

theorem addToCache_eq_spec (st : RegState) (entryIds : List Nat) :
    addToCache st entryIds = addToCacheSpec st entryIds := by
  rw [addToCache, addToCacheSpec, evictPhaseSpec]
  by_cases h : st.cacheMax < st.seqCache.length + entryIds.length
  · rw [if_pos h, if_pos h, evictLoop_eq_spec]
  · rw [if_neg h, if_neg h]

/-- C4 (confirmed): on every insertion of a batch of identifiers, if the
current cache size plus the batch size exceeds the capacity then exactly
`batch size` entries - or all remaining ones if the ledger holds fewer -
are evicted by popping from the front of the access ledger and removing
their cache entries, before the new identifiers are inserted; otherwise
nothing is evicted. -/
theorem c4_batch_eviction (st : RegState) (entryIds : List Nat) :
    addToCache st entryIds = addToCacheSpec st entryIds :=
  addToCache_eq_spec st entryIds

/-! ### Soft failure of `get_complete_sequence` (C5) -/

/-- C5 (confirmed): on a cache miss, when the sibling query fails (raises)
or the Store can return no results, `get_complete_sequence` returns the
singleton `[entry]` and, modelled as `Except`, is an `ok` value - the
failure is never propagated to the caller. -/
theorem c5_soft_fail (st : RegState) (store : Store) (entry : Entry)
    (hcold : alLookup entry.id st.seqCache = none)
    (hfail : store.queryExc = true ∨ store.entries = []) :
    getCompleteSequenceE st store entry =
      Except.ok ([entry], addToCache st [entry.id]) := by
  rw [getCompleteSequenceE, getCompleteSequence, getCompleteSequenceQ, hcold]
  have hq : ∀ baseName, querySiblings store entry baseName = [] := by
    intro baseName
    rw [querySiblings]
    rcases hfail with hexc | hemp
    · simp [Store.globQuery, hexc]
    · cases hexc : store.queryExc <;>
        simp [Store.globQuery, Store.globList, hexc, hemp, sortByPath]
  cases hm : seqMatch entry.stem.data with
  | none => rfl
  | some bd => cases bd with
    | mk baseL digits => simp [hq]

/-- C5 (witness). -/
theorem c5_soft_fail_witness :
    getCompleteSequenceE (freshReg 10) { entries := [], queryExc := true }
        ⟨1, ".", "s_001", ".png"⟩ =
      Except.ok ([⟨1, ".", "s_001", ".png"⟩], addToCache (freshReg 10) [1]) :=
  c5_soft_fail (freshReg 10) { entries := [], queryExc := true }
    ⟨1, ".", "s_001", ".png"⟩ (by decide) (Or.inl rfl)

/-! ### Non-matching records stay singletons (C6) -/

/-- C6 (confirmed): for a record whose stem does not match the sequence
pattern (on a cold cache entry for its id, with the Store resolving the
id to the record itself), `get_complete_sequence` returns exactly
`[record]` and `ids_for_poster` returns exactly `[record.id]`. -/
theorem c6_non_matching_singleton (st : RegState) (store : Store) (entry : Entry)
    (hcold : alLookup entry.id st.seqCache = none)
    (hnm : seqMatch entry.stem.data = none)
    (hfind : store.getEntry entry.id = some entry) :
    (getCompleteSequence st store entry).1 = [entry] ∧
      (idsForPoster st store entry.id).1 = [entry.id] := by
  have hgcs : getCompleteSequence st store entry =
      ([entry], addToCache st [entry.id]) := by
    rw [getCompleteSequence, getCompleteSequenceQ, hcold, hnm]
  refine ⟨by rw [hgcs], ?_⟩
  simp [idsForPoster, hcold, hfind, hgcs]

/-- C6 (witness). -/
theorem c6_non_matching_singleton_witness :
    (getCompleteSequence (freshReg 10) { entries := [⟨7, ".", "single", ".jpg"⟩] }
        ⟨7, ".", "single", ".jpg"⟩).1 = [⟨7, ".", "single", ".jpg"⟩] ∧
      (idsForPoster (freshReg 10) { entries := [⟨7, ".", "single", ".jpg"⟩] } 7).1 = [7] :=
  c6_non_matching_singleton (freshReg 10) { entries := [⟨7, ".", "single", ".jpg"⟩] }
    ⟨7, ".", "single", ".jpg"⟩ (by decide) (by decide) (by decide)

/-! ### The page assembler and the streaming paginator -/

/-- Accumulator of `_process_entries_for_sequences`: display items, frame
counts, the processed-id set of the current assembly call, and the
threaded registry state. -/
structure Assemble where
  display : List Entry
  counts : List (Option Nat)
  processed : List Nat
  reg : RegState
deriving DecidableEq

/-- One entry of `_process_entries_for_sequences`: group via the cache,
emit the poster with the frame count for groups of size > 1, the record
itself with count `None` otherwise. -/
def processStep (store : Store) (a : Assemble) (e : Entry) : Assemble :=
  if e.id ∈ a.processed then a
  else
    let r := getCompleteSequence a.reg store e
    if 1 < r.1.length then
      { display := a.display ++ [pyMinByPath r.1],
        counts := a.counts ++ [some r.1.length],
        processed := a.processed ++ r.1.map (fun x => x.id),
        reg := r.2 }
    else
      { display := a.display ++ [e],
        counts := a.counts ++ [none],
        processed := a.processed ++ [e.id],
        reg := r.2 }

/-- `_process_entries_for_sequences(entries)`. -/
def processEntriesAux (store : Store) : Assemble → List Entry → Assemble
  | a, [] => a
  | a, e :: rest => processEntriesAux store (processStep store a e) rest

/-- Loop state of `_get_page_streaming`: display items, frame counts,
processed ids and the registry state. -/
structure StreamSt where
  display : List Entry
  counts : List (Option Nat)
  processed : List Nat
  reg : RegState
deriving DecidableEq

/-- One entry of the `for entry in batch` loop of `_get_page_streaming`:
the resulting state, plus `true` when the loop continues with the next
entry (`false` models the page-full `break`).  A quick `SEQUENCE_RE`
check guards the sequence path; the sequence path ends in `continue` (so
it skips the page-full break), while the single-file path breaks out of
the batch as soon as the page is full. -/
def streamStep (store : Store) (target : Nat) (s : StreamSt) (e : Entry) :
    StreamSt × Bool :=
  if e.id ∈ s.processed then (s, true)
  else
    match
      (if (seqMatch e.stem.data).isSome then
        let r := getCompleteSequence s.reg store e
        if 1 < r.1.length then Sum.inl (r.1, r.2) else Sum.inr r.2
      else Sum.inr s.reg) with
    | Sum.inl (seq, reg2) =>
      let poster := pyMinByPath seq
      let s2 :=
        if poster.id ∈ s.processed then { s with reg := reg2 }
        else
          { display := s.display ++ [poster],
            counts := s.counts ++ [some seq.length],
            processed := s.processed ++ seq.map (fun x => x.id),
            reg := reg2 }
      (s2, true)
    | Sum.inr reg2 =>
      let s1 := { s with reg := reg2 }
      let s2 :=
        if e.id ∈ s1.processed then s1
        else
          { s1 with
            display := s1.display ++ [e],
            counts := s1.counts ++ [none],
            processed := s1.processed ++ [e.id] }
      (s2, !(decide (target ≤ s2.display.length)))

/-- The `for entry in batch` loop of `_get_page_streaming`. -/
def streamInner (store : Store) (target : Nat) : StreamSt → List Entry → StreamSt
  | s, [] => s
  | s, e :: rest =>
    let r := streamStep store target s e
    if r.2 then streamInner store target r.1 rest else r.1

/-- Outer loop state of `_get_page_streaming`, with a log of the
`(offset, limit)` batch requests the loop sent to the Store. -/
structure StreamOuter where
  core : StreamSt
  batchSize : Nat
  offset : Nat
  log : List (Nat × Nat)
deriving DecidableEq

/-- The `while` loop of `_get_page_streaming` with explicit fuel.  Each
continuing iteration advances `offset` by at least one and the loop stops
once `offset > 50000`, so `50002` iterations always suffice; the fuel-out
branch mirrors a loop break.  On a zero-progress batch the batch size is
doubled only while it is `< 1000`; otherwise the loop breaks (without the
offset update the `break` skips). -/
def streamLoopF (store : Store) (target : Nat) : Nat → StreamOuter → StreamOuter
  | 0, so => so
  | fuel + 1, so =>
    if so.core.display.length < target then
      let batch := store.getBatch so.offset so.batchSize
      let so0 := { so with log := so.log ++ [(so.offset, so.batchSize)] }
      if batch = [] then so0
      else
        let core2 := streamInner store target so.core batch
        if core2.display.length = so.core.display.length then
          if so.batchSize < 1000 then
            let so2 := { so0 with
              core := core2, batchSize := so.batchSize * 2,
              offset := so.offset + batch.length }
            if 50000 < so2.offset then so2 else streamLoopF store target fuel so2
          else { so0 with core := core2 }
        else
          let so2 := { so0 with core := core2, offset := so.offset + batch.length }
          if 50000 < so2.offset then so2 else streamLoopF store target fuel so2
    else so

/-- Ample fuel for `streamLoopF` (see its doc comment). -/
def streamFuel : Nat := 50002

/-- The initial loop state of `_get_page_streaming`: empty page, batch
size `max(page_size * 2, 200)` ("minimum reasonable batch"), offset 0. -/
def streamStart (st : RegState) (pageSize : Nat) : StreamOuter :=
  ⟨⟨[], [], [], st⟩, max (pageSize * 2) 200, 0, []⟩

/-- Loop state of `_get_exact_page`. -/
structure ExactSt where
  display : List Entry
  counts : List (Option Nat)
  processed : List Nat
  itemsFound : Nat
  reg : RegState
deriving DecidableEq

/-- One entry of the `for entry in batch` loop of `_get_exact_page`:
display items are only emitted once `items_found` has reached the skip
target, but `items_found` counts every new display group either way.
Returns the new state plus `true` when the loop continues (`false`
models the page-full `break`). -/
def exactStep (store : Store) (targetSkip target : Nat) (s : ExactSt) (e : Entry) :
    ExactSt × Bool :=
  if e.id ∈ s.processed then (s, true)
  else
    match
      (if (seqMatch e.stem.data).isSome then
        let r := getCompleteSequence s.reg store e
        if 1 < r.1.length then Sum.inl (r.1, r.2) else Sum.inr r.2
      else Sum.inr s.reg) with
    | Sum.inl (seq, reg2) =>
      let poster := pyMinByPath seq
      let s2 :=
        if poster.id ∈ s.processed then { s with reg := reg2 }
        else
          { display := if targetSkip ≤ s.itemsFound then s.display ++ [poster] else s.display,
            counts := if targetSkip ≤ s.itemsFound then s.counts ++ [some seq.length] else s.counts,
            processed := s.processed ++ seq.map (fun x => x.id),
            itemsFound := s.itemsFound + 1,
            reg := reg2 }
      (s2, true)
    | Sum.inr reg2 =>
      let s1 := { s with reg := reg2 }
      let s2 :=
        if e.id ∈ s1.processed then s1
        else
          { s1 with
            display := if targetSkip ≤ s1.itemsFound then s1.display ++ [e] else s1.display,
            counts := if targetSkip ≤ s1.itemsFound then s1.counts ++ [none] else s1.counts,
            processed := s1.processed ++ [e.id],
            itemsFound := s1.itemsFound + 1 }
      (s2, !(decide (target ≤ s2.display.length)))

/-- The `for entry in batch` loop of `_get_exact_page`. -/
def exactInner (store : Store) (targetSkip target : Nat) : ExactSt → List Entry → ExactSt
  | s, [] => s
  | s, e :: rest =>
    let r := exactStep store targetSkip target s e
    if r.2 then exactInner store targetSkip target r.1 rest else r.1

/-- Outer loop state of `_get_exact_page`. -/
structure ExactOuter where
  core : ExactSt
  offset : Nat
deriving DecidableEq

/-- The `while items_found < target_skip + target_items` loop of
`_get_exact_page`, with explicit fuel (offset advances by at least one per
continuing iteration and the loop stops past offset 100000, so `100002`
iterations always suffice).  Batch size is the fixed 500. -/
def exactLoopF (store : Store) (targetSkip target : Nat) : Nat → ExactOuter → ExactOuter
  | 0, eo => eo
  | fuel + 1, eo =>
    if eo.core.itemsFound < targetSkip + target then
      let batch := store.getBatch eo.offset 500
      if batch = [] then eo
      else
        let core2 := exactInner store targetSkip target eo.core batch
        let eo2 : ExactOuter := ⟨core2, eo.offset + batch.length⟩
        if 100000 < eo2.offset then eo2 else exactLoopF store targetSkip target fuel eo2
    else eo

/-- Ample fuel for `exactLoopF` (see its doc comment). -/
def exactFuel : Nat := 100002

/-- The full final loop state of `_get_exact_page(page_num, page_size)`
starting from a given registry state. -/
def exactRun (st : RegState) (store : Store) (pageNum pageSize : Nat) : ExactOuter :=
  exactLoopF store (pageNum * pageSize) pageSize exactFuel ⟨⟨[], [], [], 0, st⟩, 0⟩

/-- `_get_exact_page(page_num, page_size)`.  The `int(entries_count *
ratio)` estimate is modelled with exact natural division; no claim
depends on its value (it is a float truncation in the source). -/
def getExactPage (st : RegState) (store : Store) (pageNum pageSize : Nat) :
    (List Entry × List (Option Nat) × Nat) × RegState :=
  let fin := exactRun st store pageNum pageSize
  let est := if 0 < fin.offset then store.entriesCount * fin.core.itemsFound / fin.offset
             else fin.core.itemsFound
  ((fin.core.display.take pageSize, fin.core.counts.take pageSize, est), fin.core.reg)

/-- `_get_page_progressive(page_num, page_size, estimated_total)`: serve a
cached page verbatim, otherwise fall back to `_get_exact_page` (the
`start_items_to_skip` computation of the source is dead code: its result
is never used). -/
def getPageProgressive (st : RegState) (store : Store)
    (pageNum pageSize estimatedTotal : Nat) :
    (List Entry × List (Option Nat) × Nat) × RegState :=
  match alLookup pageNum st.progCache with
  | some items => ((items.1, items.2, estimatedTotal), st)
  | none => getExactPage st store pageNum pageSize

/-- `_get_page_streaming(page_num, page_size)`: run the streaming scan
(initial batch size `max(page_size * 2, 200)`), record page 0 in the
progressive cache, and for `page_num > 0` delegate to the progressive
path.  The ratio-based estimate is modelled with natural division, as in
`getExactPage`. -/
def getPageStreaming (st : RegState) (store : Store) (pageNum pageSize : Nat) :
    (List Entry × List (Option Nat) × Nat) × RegState :=
  let fin := streamLoopF store pageSize streamFuel (streamStart st pageSize)
  let est := if 0 < fin.offset then store.entriesCount * fin.core.display.length / fin.offset
             else fin.core.display.length
  let reg1 := { fin.core.reg with
    progCache := alInsert 0 (fin.core.display.take pageSize, fin.core.counts.take pageSize)
      fin.core.reg.progCache }
  if 0 < pageNum then getPageProgressive reg1 store pageNum pageSize est
  else ((fin.core.display.take pageSize, fin.core.counts.take pageSize, est), reg1)

/-- Python slicing `l[a:b]` for nonnegative bounds. -/
def pySlice {α : Type} (l : List α) (a b : Nat) : List α :=
  (l.drop a).take (b - a)

/-- `get_sequence_aware_page(page_num, page_size, browsing_state)`: a
browsing state with a query or ast is modelled as `some filter`; the
filtered mode materializes the search result (limit 999999), assembles it
once and slices, the unfiltered mode streams. -/
def getSequenceAwarePage (st : RegState) (store : Store) (pageNum pageSize : Nat)
    (filt : Option (Entry → Bool)) :
    (List Entry × List (Option Nat) × Nat) × RegState :=
  match filt with
  | some f =>
    let a := processEntriesAux store ⟨[], [], [], st⟩ (store.searchLibrary f 999999)
    ((pySlice a.display (pageNum * pageSize) (pageNum * pageSize + pageSize),
      pySlice a.counts (pageNum * pageSize) (pageNum * pageSize + pageSize),
      a.display.length), a.reg)
  | none => getPageStreaming st store pageNum pageSize

/-! ### State-threading lemmas -/

theorem insertLoop_progCache (all : List Nat) :
    ∀ (l : List Nat) (st : RegState), (insertLoop all l st).progCache = st.progCache := by
  intro l
  induction l with
  | nil => intro st; rfl
  | cons x r ih => intro st; rw [insertLoop]; exact ih _

theorem insertLoop_cacheMax (all : List Nat) :
    ∀ (l : List Nat) (st : RegState), (insertLoop all l st).cacheMax = st.cacheMax := by
  intro l
  induction l with
  | nil => intro st; rfl
  | cons x r ih => intro st; rw [insertLoop]; exact ih _

theorem addToCache_progCache (st : RegState) (ids : List Nat) :
    (addToCache st ids).progCache = st.progCache := by
  rw [addToCache, insertLoop_progCache]
  by_cases h : st.cacheMax < st.seqCache.length + ids.length
  · rw [if_pos h, evictLoop_eq_spec]
  · rw [if_neg h]

theorem addToCache_cacheMax (st : RegState) (ids : List Nat) :
    (addToCache st ids).cacheMax = st.cacheMax := by
  rw [addToCache, insertLoop_cacheMax]
  by_cases h : st.cacheMax < st.seqCache.length + ids.length
  · rw [if_pos h, evictLoop_eq_spec]
  · rw [if_neg h]

theorem getCompleteSequence_progCache (st : RegState) (store : Store) (e : Entry) :
    ((getCompleteSequence st store e).2).progCache = st.progCache := by
  rw [getCompleteSequence, getCompleteSequenceQ]
  cases h : alLookup e.id st.seqCache with
  | some ids => rfl
  | none =>
    cases hm : seqMatch e.stem.data with
    | none => exact addToCache_progCache st [e.id]
    | some bd =>
      obtain ⟨b, d⟩ := bd
      by_cases hq : querySiblings store e (String.mk b) = [] <;>
        simp [hq, addToCache_progCache]

theorem getCompleteSequence_cacheMax (st : RegState) (store : Store) (e : Entry) :
    ((getCompleteSequence st store e).2).cacheMax = st.cacheMax := by
  rw [getCompleteSequence, getCompleteSequenceQ]
  cases h : alLookup e.id st.seqCache with
  | some ids => rfl
  | none =>
    cases hm : seqMatch e.stem.data with
    | none => exact addToCache_cacheMax st [e.id]
    | some bd =>
      obtain ⟨b, d⟩ := bd
      by_cases hq : querySiblings store e (String.mk b) = [] <;>
        simp [hq, addToCache_cacheMax]

/-- The registry state a `streamStep` leaves behind is either untouched or
the state `get_complete_sequence` leaves behind. -/
theorem streamStep_reg (store : Store) (target : Nat) (s : StreamSt) (e : Entry) :
    (streamStep store target s e).1.reg = s.reg ∨
    (streamStep store target s e).1.reg = (getCompleteSequence s.reg store e).2 := by
  rw [streamStep]
  by_cases h1 : e.id ∈ s.processed
  · simp [h1]
  · simp only [h1, if_neg, Bool.false_eq_true, not_false_eq_true]
    by_cases hm : (seqMatch e.stem.data).isSome
    · by_cases hl : 1 < (getCompleteSequence s.reg store e).1.length
      · simp only [hm, if_pos, hl]
        by_cases hp : (pyMinByPath (getCompleteSequence s.reg store e).1).id ∈ s.processed <;>
          simp [hp]
      · simp only [hm, if_pos, hl, if_neg]
        by_cases h2 : e.id ∈ s.processed <;> simp [h2]
    · simp only [hm]
      by_cases h2 : e.id ∈ s.processed <;> simp [h2]

/-- Same fact for `exactStep`. -/
theorem exactStep_reg (store : Store) (targetSkip target : Nat) (s : ExactSt) (e : Entry) :
    (exactStep store targetSkip target s e).1.reg = s.reg ∨
    (exactStep store targetSkip target s e).1.reg = (getCompleteSequence s.reg store e).2 := by
  rw [exactStep]
  by_cases h1 : e.id ∈ s.processed
  · simp [h1]
  · simp only [h1, if_neg, Bool.false_eq_true, not_false_eq_true]
    by_cases hm : (seqMatch e.stem.data).isSome
    · by_cases hl : 1 < (getCompleteSequence s.reg store e).1.length
      · simp only [hm, if_pos, hl]
        by_cases hp : (pyMinByPath (getCompleteSequence s.reg store e).1).id ∈ s.processed <;>
          simp [hp]
      · simp only [hm, if_pos, hl, if_neg]
        by_cases h2 : e.id ∈ s.processed <;> simp [h2]
    · simp only [hm]
      by_cases h2 : e.id ∈ s.processed <;> simp [h2]

/-- Same fact for `processStep`. -/
theorem processStep_reg (store : Store) (a : Assemble) (e : Entry) :
    (processStep store a e).reg = a.reg ∨
    (processStep store a e).reg = (getCompleteSequence a.reg store e).2 := by
  rw [processStep]
  by_cases h1 : e.id ∈ a.processed
  · simp [h1]
  · by_cases hl : 1 < (getCompleteSequence a.reg store e).1.length <;> simp [h1, hl]

/-- A registry-state property preserved by `get_complete_sequence`. -/
def GCSPres (store : Store) (P : RegState → Prop) : Prop :=
  ∀ (st : RegState) (e : Entry), P st → P (getCompleteSequence st store e).2

theorem streamInner_pres {store : Store} {target : Nat} {P : RegState → Prop}
    (hP : GCSPres store P) :
    ∀ (l : List Entry) (s : StreamSt), P s.reg →
      P (streamInner store target s l).reg := by
  intro l
  induction l with
  | nil => intro s hs; exact hs
  | cons e rest ih =>
    intro s hs
    have hstep : P (streamStep store target s e).1.reg := by
      rcases streamStep_reg store target s e with h | h
      · rw [h]; exact hs
      · rw [h]; exact hP s.reg e hs
    rw [streamInner]
    by_cases h2 : (streamStep store target s e).2 = true
    · simp only [h2, if_pos]; exact ih _ hstep
    · simp only [Bool.not_eq_true] at h2; simp only [h2]; exact hstep

theorem exactInner_pres {store : Store} {targetSkip target : Nat} {P : RegState → Prop}
    (hP : GCSPres store P) :
    ∀ (l : List Entry) (s : ExactSt), P s.reg →
      P (exactInner store targetSkip target s l).reg := by
  intro l
  induction l with
  | nil => intro s hs; exact hs
  | cons e rest ih =>
    intro s hs
    have hstep : P (exactStep store targetSkip target s e).1.reg := by
      rcases exactStep_reg store targetSkip target s e with h | h
      · rw [h]; exact hs
      · rw [h]; exact hP s.reg e hs
    rw [exactInner]
    by_cases h2 : (exactStep store targetSkip target s e).2 = true
    · simp only [h2, if_pos]; exact ih _ hstep
    · simp only [Bool.not_eq_true] at h2; simp only [h2]; exact hstep

theorem processEntriesAux_pres {store : Store} {P : RegState → Prop}
    (hP : GCSPres store P) :
    ∀ (l : List Entry) (a : Assemble), P a.reg →
      P (processEntriesAux store a l).reg := by
  intro l
  induction l with
  | nil => intro a ha; exact ha
  | cons e rest ih =>
    intro a ha
    rw [processEntriesAux]
    refine ih _ ?_
    rcases processStep_reg store a e with h | h
    · rw [h]; exact ha
    · rw [h]; exact hP a.reg e ha

theorem streamLoopF_pres {store : Store} {target : Nat} {P : RegState → Prop}
    (hP : GCSPres store P) :
    ∀ (fuel : Nat) (so : StreamOuter), P so.core.reg →
      P (streamLoopF store target fuel so).core.reg := by
  intro fuel
  induction fuel with
  | zero => intro so h; exact h
  | succ n ih =>
    intro so h
    rw [streamLoopF]
    by_cases h1 : so.core.display.length < target
    · simp only [h1, if_pos]
      by_cases h2 : store.getBatch so.offset so.batchSize = []
      · simp only [h2, if_pos]; exact h
      · simp only [h2, if_neg]
        have hinner : P (streamInner store target so.core
            (store.getBatch so.offset so.batchSize)).reg :=
          streamInner_pres hP _ _ h
        by_cases h3 : (streamInner store target so.core
            (store.getBatch so.offset so.batchSize)).display.length =
            so.core.display.length
        · simp only [h3, if_pos]
          by_cases h4 : so.batchSize < 1000
          · simp only [h4, if_pos]
            by_cases h5 : 50000 < so.offset +
                (store.getBatch so.offset so.batchSize).length
            · simp only [h5, if_pos]; exact hinner
            · simp only [h5, if_neg]; exact ih _ hinner
          · simp only [h4, if_neg]; exact hinner
        · simp only [h3, if_neg]
          by_cases h5 : 50000 < so.offset +
              (store.getBatch so.offset so.batchSize).length
          · simp only [h5, if_pos]; exact hinner
          · simp only [h5, if_neg]; exact ih _ hinner
    · simp only [h1, if_neg]; exact h

theorem exactLoopF_pres {store : Store} {targetSkip target : Nat} {P : RegState → Prop}
    (hP : GCSPres store P) :
    ∀ (fuel : Nat) (eo : ExactOuter), P eo.core.reg →
      P (exactLoopF store targetSkip target fuel eo).core.reg := by
  intro fuel
  induction fuel with
  | zero => intro eo h; exact h
  | succ n ih =>
    intro eo h
    rw [exactLoopF]
    by_cases h1 : eo.core.itemsFound < targetSkip + target
    · simp only [h1, if_pos]
      by_cases h2 : store.getBatch eo.offset 500 = []
      · simp only [h2, if_pos]; exact h
      · simp only [h2, if_neg]
        have hinner : P (exactInner store targetSkip target eo.core
            (store.getBatch eo.offset 500)).reg :=
          exactInner_pres hP _ _ h
        by_cases h5 : 100000 < eo.offset + (store.getBatch eo.offset 500).length
        · simp only [h5, if_pos]; exact hinner
        · simp only [h5, if_neg]; exact ih _ hinner
    · simp only [h1, if_neg]; exact h

/-! ### Filtered-mode pagination (C7) -/

/-- C7 (confirmed): in filtered mode, for every page number and positive
page size, `get_sequence_aware_page` returns exactly the slice
`[page*size : (page+1)*size]` of the display list assembled once from the
full filtered result set, and the returned total is the exact length of
that assembled list. -/
theorem c7_filtered_exact_slice (st : RegState) (store : Store)
    (pageNum pageSize : Nat) (f : Entry → Bool) (hps : 0 < pageSize)
    (hsmall : (store.entries.filter f).length ≤ 999999) :
    (getSequenceAwarePage st store pageNum pageSize (some f)).1 =
      (((processEntriesAux store ⟨[], [], [], st⟩ (store.entries.filter f)).display.drop
          (pageNum * pageSize)).take pageSize,
       ((processEntriesAux store ⟨[], [], [], st⟩ (store.entries.filter f)).counts.drop
          (pageNum * pageSize)).take pageSize,
       (processEntriesAux store ⟨[], [], [], st⟩ (store.entries.filter f)).display.length) := by
  have hsearch : store.searchLibrary f 999999 = store.entries.filter f := by
    rw [Store.searchLibrary, List.take_of_length_le hsmall]
  simp [getSequenceAwarePage, hsearch, pySlice, Nat.add_sub_cancel_left]

/-- C7 (witness). -/
theorem c7_filtered_exact_slice_witness :
    (getSequenceAwarePage (freshReg 10) { entries := [⟨1, ".", "one", ".jpg"⟩] }
        0 2 (some (fun _ => true))).1 =
      (((processEntriesAux { entries := [⟨1, ".", "one", ".jpg"⟩] } ⟨[], [], [], freshReg 10⟩
          (List.filter (fun _ => true) [⟨1, ".", "one", ".jpg"⟩])).display.drop 0).take 2,
       ((processEntriesAux { entries := [⟨1, ".", "one", ".jpg"⟩] } ⟨[], [], [], freshReg 10⟩
          (List.filter (fun _ => true) [⟨1, ".", "one", ".jpg"⟩])).counts.drop 0).take 2,
       (processEntriesAux { entries := [⟨1, ".", "one", ".jpg"⟩] } ⟨[], [], [], freshReg 10⟩
          (List.filter (fun _ => true) [⟨1, ".", "one", ".jpg"⟩])).display.length) :=
  c7_filtered_exact_slice (freshReg 10) { entries := [⟨1, ".", "one", ".jpg"⟩] }
    0 2 (fun _ => true) (by decide) (by decide)

/-! ### Streaming batch sizing (C9) -/

/-- C9 (amended): in unfiltered streaming mode the initial batch size is
`max(2 * page_size, 200)`; on an iteration whose nonempty batch yields
zero new display items, the next batch is requested with double the
previous batch size ONLY while the batch size is still below 1000 (and
the offset cap has not been passed); once the batch size has reached
1000, a zero-yield batch terminates the scan even though the page is not
full, the batch was nonempty and the safety cap was not reached. -/
theorem c9_batch_growth (store : Store) (target fuel : Nat) (so : StreamOuter)
    (hlt : so.core.display.length < target)
    (hbatch : store.getBatch so.offset so.batchSize ≠ [])
    (hzero : (streamInner store target so.core
        (store.getBatch so.offset so.batchSize)).display.length =
      so.core.display.length) :
    (∀ st2 : RegState, ∀ ps : Nat, (streamStart st2 ps).batchSize = max (ps * 2) 200) ∧
    (so.batchSize < 1000 →
      ¬ 50000 < so.offset + (store.getBatch so.offset so.batchSize).length →
      streamLoopF store target (fuel + 1) so =
        streamLoopF store target fuel
          { core := streamInner store target so.core (store.getBatch so.offset so.batchSize),
            batchSize := so.batchSize * 2,
            offset := so.offset + (store.getBatch so.offset so.batchSize).length,
            log := so.log ++ [(so.offset, so.batchSize)] }) ∧
    (1000 ≤ so.batchSize →
      streamLoopF store target (fuel + 1) so =
        { core := streamInner store target so.core (store.getBatch so.offset so.batchSize),
          batchSize := so.batchSize,
          offset := so.offset,
          log := so.log ++ [(so.offset, so.batchSize)] }) := by
  refine ⟨fun st2 ps => rfl, ?_, ?_⟩
  · intro hsmall hcap
    rw [streamLoopF]
    simp only [hlt, if_pos, hbatch, if_neg, hzero, hsmall, hcap]
    simp
  · intro hbig
    have hsmall : ¬ so.batchSize < 1000 := Nat.not_lt.mpr hbig
    rw [streamLoopF]
    simp only [hlt, if_pos, hbatch, if_neg, hzero, hsmall]
    simp

/-- C9 (witness for the amended theorem): a loop state with batch size
1000 whose one-record batch is already processed; the hypotheses hold and
the stop conjunct applies. -/
theorem c9_batch_growth_witness :
    (∀ st2 : RegState, ∀ ps : Nat, (streamStart st2 ps).batchSize = max (ps * 2) 200) ∧
    ((1000 : Nat) ≤ 1000 →
      streamLoopF { entries := [⟨1, ".", "a", ".png"⟩] } 500 (streamFuel + 1)
          ⟨⟨[], [], [1], freshReg 10⟩, 1000, 0, []⟩ =
        { core := streamInner { entries := [⟨1, ".", "a", ".png"⟩] } 500
            ⟨[], [], [1], freshReg 10⟩
            (Store.getBatch { entries := [⟨1, ".", "a", ".png"⟩] } 0 1000),
          batchSize := 1000,
          offset := 0,
          log := [] ++ [(0, 1000)] }) :=
  ⟨(c9_batch_growth { entries := [⟨1, ".", "a", ".png"⟩] } 500 streamFuel
      ⟨⟨[], [], [1], freshReg 10⟩, 1000, 0, []⟩ (by decide) (by decide) (by decide)).1,
   (c9_batch_growth { entries := [⟨1, ".", "a", ".png"⟩] } 500 streamFuel
      ⟨⟨[], [], [1], freshReg 10⟩, 1000, 0, []⟩ (by decide) (by decide) (by decide)).2.2⟩

/-- C9 (counterexample): the claim as stated says a zero-yield batch
always doubles the batch size so that the scan continues until the page
is full, the store is exhausted, or the cap is reached.  In this concrete
run the first (nonempty) batch yields zero new items at batch size 1000:
the scan stops after a single batch request, no doubled batch is ever
requested, the page is not full (0 < 500 items), the pulled batch was
nonempty, and the offset 0 is far below the 50000 cap. -/
theorem c9_counterexample :
    streamLoopF { entries := [⟨1, ".", "a", ".png"⟩] } 500 streamFuel
        ⟨⟨[], [], [1], freshReg 10⟩, 1000, 0, []⟩ =
      ⟨⟨[], [], [1], freshReg 10⟩, 1000, 0, [(0, 1000)]⟩ ∧
    (streamLoopF { entries := [⟨1, ".", "a", ".png"⟩] } 500 streamFuel
        ⟨⟨[], [], [1], freshReg 10⟩, 1000, 0, []⟩).log.filter
          (fun r => r.2 = 2000) = [] ∧
    (streamLoopF { entries := [⟨1, ".", "a", ".png"⟩] } 500 streamFuel
        ⟨⟨[], [], [1], freshReg 10⟩, 1000, 0, []⟩).core.display.length < 500 ∧
    Store.getBatch { entries := [⟨1, ".", "a", ".png"⟩] } 0 1000 ≠ [] ∧
    (streamLoopF { entries := [⟨1, ".", "a", ".png"⟩] } 500 streamFuel
        ⟨⟨[], [], [1], freshReg 10⟩, 1000, 0, []⟩).offset ≤ 50000 := by
  decide

/-! ### Past-the-end pages (C10) -/

theorem processEntriesAux_len {store : Store} :
    ∀ (l : List Entry) (a : Assemble), a.display.length = a.counts.length →
      (processEntriesAux store a l).display.length =
        (processEntriesAux store a l).counts.length := by
  intro l
  induction l with
  | nil => intro a h; exact h
  | cons e rest ih =>
    intro a h
    rw [processEntriesAux]
    refine ih _ ?_
    rw [processStep]
    by_cases h1 : e.id ∈ a.processed
    · simp [h1, h]
    · by_cases hl : 1 < (getCompleteSequence a.reg store e).1.length <;> simp [h1, hl, h]

/-- Invariant of the `_get_exact_page` scan: as long as fewer than
`targetSkip` display groups have been counted, nothing has been emitted. -/
def EmptyBelow (skip : Nat) (s : ExactSt) : Prop :=
  (s.display = [] ∧ s.counts = []) ∨ skip < s.itemsFound

theorem exactStep_emptyBelow {store : Store} {skip target : Nat} (s : ExactSt) (e : Entry)
    (h : EmptyBelow skip s) : EmptyBelow skip (exactStep store skip target s e).1 := by
  rw [exactStep]
  by_cases h1 : e.id ∈ s.processed
  · simpa [h1] using h
  · simp only [h1, if_neg, Bool.false_eq_true, not_false_eq_true]
    by_cases hm : (seqMatch e.stem.data).isSome
    · by_cases hl : 1 < (getCompleteSequence s.reg store e).1.length
      · simp only [hm, hl, if_pos]
        by_cases hp : (pyMinByPath (getCompleteSequence s.reg store e).1).id ∈ s.processed
        · simpa [hp] using h
        · simp only [hp, if_neg, Bool.false_eq_true, not_false_eq_true]
          by_cases hf : skip ≤ s.itemsFound
          · exact Or.inr (by simp [hf]; omega)
          · rcases h with ⟨hd, hc⟩ | hgt
            · exact Or.inl (by simp [hf, hd, hc])
            · exact absurd (Nat.le_of_lt hgt) hf
      · simp only [hm, hl, if_pos, if_neg]
        by_cases hf : skip ≤ s.itemsFound
        · exact Or.inr (by simp [hf]; omega)
        · rcases h with ⟨hd, hc⟩ | hgt
          · exact Or.inl (by simp [hf, hd, hc])
          · exact absurd (Nat.le_of_lt hgt) hf
    · simp only [hm, Bool.false_eq_true, if_neg]
      by_cases hf : skip ≤ s.itemsFound
      · exact Or.inr (by simp [hf]; omega)
      · rcases h with ⟨hd, hc⟩ | hgt
        · exact Or.inl (by simp [hf, hd, hc])
        · exact absurd (Nat.le_of_lt hgt) hf

theorem exactInner_emptyBelow {store : Store} {skip target : Nat} :
    ∀ (l : List Entry) (s : ExactSt), EmptyBelow skip s →
      EmptyBelow skip (exactInner store skip target s l) := by
  intro l
  induction l with
  | nil => intro s h; exact h
  | cons e rest ih =>
    intro s h
    rw [exactInner]
    by_cases h2 : (exactStep store skip target s e).2 = true
    · simp only [h2, if_pos]; exact ih _ (exactStep_emptyBelow s e h)
    · simp only [Bool.not_eq_true] at h2; simp only [h2]
      exact exactStep_emptyBelow s e h

theorem exactLoopF_emptyBelow {store : Store} {skip target : Nat} :
    ∀ (fuel : Nat) (eo : ExactOuter), EmptyBelow skip eo.core →
      EmptyBelow skip (exactLoopF store skip target fuel eo).core := by
  intro fuel
  induction fuel with
  | zero => intro eo h; exact h
  | succ n ih =>
    intro eo h
    rw [exactLoopF]
    by_cases h1 : eo.core.itemsFound < skip + target
    · simp only [h1, if_pos]
      by_cases h2 : store.getBatch eo.offset 500 = []
      · simp only [h2, if_pos]; exact h
      · simp only [h2, if_neg]
        have hinner := @exactInner_emptyBelow store skip target
          (store.getBatch eo.offset 500) eo.core h
        by_cases h5 : 100000 < eo.offset + (store.getBatch eo.offset 500).length
        · simp only [h5, if_pos]; exact hinner
        · simp only [h5, if_neg]; exact ih _ hinner
    · simp only [h1, if_neg]; exact h

/-- The registry state `_get_page_streaming` has built right before it
delegates page numbers > 0 to the progressive path: the page-0 scan has
run and its page snapshot has been written to the progressive cache. -/
def streamedReg (st : RegState) (store : Store) (pageSize : Nat) : RegState :=
  let fin := streamLoopF store pageSize streamFuel (streamStart st pageSize)
  { fin.core.reg with
    progCache := alInsert 0 (fin.core.display.take pageSize, fin.core.counts.take pageSize)
      fin.core.reg.progCache }

theorem streamedReg_progCache (st : RegState) (store : Store) (pageSize : Nat)
    (hprog : st.progCache = []) :
    ∃ p, (streamedReg st store pageSize).progCache = [(0, p)] := by
  have hfin : (streamLoopF store pageSize streamFuel (streamStart st pageSize)).core.reg.progCache
      = [] := by
    have hpres : GCSPres store (fun r => r.progCache = ([] : List (Nat × (List Entry × List (Option Nat))))) := by
      intro r e h
      rw [getCompleteSequence_progCache]; exact h
    exact streamLoopF_pres hpres streamFuel (streamStart st pageSize) hprog
  exact ⟨_, by rw [streamedReg, hfin]; rfl⟩

/-- Routing of unfiltered pages > 0 (fresh progressive cache): the
streaming entry point runs the page-0 scan, caches it as page 0, misses
the progressive cache for the requested page and falls through to
`_get_exact_page` on the post-scan registry state. -/
theorem unfiltered_route (st : RegState) (store : Store) (pageNum pageSize : Nat)
    (hpn : 0 < pageNum) (hprog : st.progCache = []) :
    getSequenceAwarePage st store pageNum pageSize none =
      getExactPage (streamedReg st store pageSize) store pageNum pageSize := by
  obtain ⟨p, hp⟩ := streamedReg_progCache st store pageSize hprog
  have hlook : alLookup pageNum (streamedReg st store pageSize).progCache = none := by
    rw [hp, alLookup]
    have h0 : ¬ (0 = pageNum) := by omega
    simp [h0, alLookup]
  simp only [getSequenceAwarePage, getPageStreaming, if_pos hpn]
  change getPageProgressive (streamedReg st store pageSize) store pageNum pageSize _ = _
  simp only [getPageProgressive, hlook]

/-- C10 (confirmed): requesting a page past the end never fails.  In
filtered mode, when the assembled display list has at most
`page_number * page_size` items, the returned display and frame-count
lists are both empty and the returned total is still the exact assembled
length.  In unfiltered mode (page_number > 0, fresh progressive cache),
when the `_get_exact_page` scan finds at most `page_number * page_size`
display groups, the returned display and frame-count lists are both
empty.  The call is total: it returns rather than raising. -/
theorem c10_past_end_empty (st : RegState) (store : Store) (pageNum pageSize : Nat)
    (f : Entry → Bool) (hps : 0 < pageSize) (hpn : 0 < pageNum)
    (hprog : st.progCache = [])
    (hfilt : (processEntriesAux store ⟨[], [], [], st⟩
        (store.searchLibrary f 999999)).display.length ≤ pageNum * pageSize)
    (hstream : (exactRun (streamedReg st store pageSize) store
        pageNum pageSize).core.itemsFound ≤ pageNum * pageSize) :
    ((getSequenceAwarePage st store pageNum pageSize (some f)).1.1 = [] ∧
     (getSequenceAwarePage st store pageNum pageSize (some f)).1.2.1 = [] ∧
     (getSequenceAwarePage st store pageNum pageSize (some f)).1.2.2 =
       (processEntriesAux store ⟨[], [], [], st⟩
         (store.searchLibrary f 999999)).display.length) ∧
    ((getSequenceAwarePage st store pageNum pageSize none).1.1 = [] ∧
     (getSequenceAwarePage st store pageNum pageSize none).1.2.1 = []) := by
  have hlen0 : (processEntriesAux store ⟨[], [], [], st⟩
      (store.searchLibrary f 999999)).display.length =
      (processEntriesAux store ⟨[], [], [], st⟩
        (store.searchLibrary f 999999)).counts.length :=
    processEntriesAux_len _ _ rfl
  constructor
  · refine ⟨?_, ?_, ?_⟩
    · simp only [getSequenceAwarePage, pySlice]
      rw [List.drop_eq_nil_of_le hfilt]
      simp
    · simp only [getSequenceAwarePage, pySlice]
      rw [List.drop_eq_nil_of_le (by omega)]
      simp
    · simp [getSequenceAwarePage]
  · rw [unfiltered_route st store pageNum pageSize hpn hprog]
    have hinv : EmptyBelow (pageNum * pageSize)
        (exactRun (streamedReg st store pageSize) store pageNum pageSize).core :=
      exactLoopF_emptyBelow exactFuel _ (Or.inl ⟨rfl, rfl⟩)
    rcases hinv with ⟨hd, hc⟩ | hgt
    · exact ⟨by simp [getExactPage, hd], by simp [getExactPage, hc]⟩
    · omega

/-- C10 (witness). -/
theorem c10_past_end_empty_witness :
    ((getSequenceAwarePage (freshReg 10) { entries := [⟨1, ".", "a", ".png"⟩] } 1 1
        (some (fun _ => true))).1.1 = [] ∧
     (getSequenceAwarePage (freshReg 10) { entries := [⟨1, ".", "a", ".png"⟩] } 1 1
        (some (fun _ => true))).1.2.1 = [] ∧
     (getSequenceAwarePage (freshReg 10) { entries := [⟨1, ".", "a", ".png"⟩] } 1 1
        (some (fun _ => true))).1.2.2 =
       (processEntriesAux { entries := [⟨1, ".", "a", ".png"⟩] } ⟨[], [], [], freshReg 10⟩
         (Store.searchLibrary { entries := [⟨1, ".", "a", ".png"⟩] } (fun _ => true)
           999999)).display.length) ∧
    ((getSequenceAwarePage (freshReg 10) { entries := [⟨1, ".", "a", ".png"⟩] } 1 1
        none).1.1 = [] ∧
     (getSequenceAwarePage (freshReg 10) { entries := [⟨1, ".", "a", ".png"⟩] } 1 1
        none).1.2.1 = []) :=
  c10_past_end_empty (freshReg 10) { entries := [⟨1, ".", "a", ".png"⟩] } 1 1
    (fun _ => true) (by decide) (by decide) (by decide) (by decide) (by decide)

/-! ### Order and sorting lemmas for `ORDER BY path` (toward C1) -/

theorem char_toNat_inj {a b : Char} (h : a.toNat = b.toNat) : a = b :=
  Char.ext (UInt32.ext h)

theorem strLt_asymm : ∀ {a b : List Char}, strLt a b = true → strLt b a = false := by
  intro a
  induction a with
  | nil => intro b h; cases b <;> simp_all [strLt]
  | cons x xs ih =>
    intro b h
    cases b with
    | nil => simp [strLt] at h
    | cons y ys =>
      rw [strLt] at h ⊢
      by_cases hxy : x = y
      · subst hxy; rw [if_pos rfl] at h ⊢; exact ih h
      · have hyx : ¬ (y = x) := fun hh => hxy hh.symm
        rw [if_neg hxy, decide_eq_true_eq] at h
        rw [if_neg hyx, decide_eq_false_iff_not]
        omega

theorem strLt_trans : ∀ {a b c : List Char},
    strLt a b = true → strLt b c = true → strLt a c = true := by
  intro a
  induction a with
  | nil =>
    intro b c h1 h2
    cases b with
    | nil => simp [strLt] at h1
    | cons y ys => cases c with
      | nil => simp [strLt] at h2
      | cons z zs => simp [strLt]
  | cons x xs ih =>
    intro b c h1 h2
    cases b with
    | nil => simp [strLt] at h1
    | cons y ys =>
      cases c with
      | nil => simp [strLt] at h2
      | cons z zs =>
        rw [strLt] at h1 h2 ⊢
        by_cases hxy : x = y <;> by_cases hyz : y = z
        · subst hxy; subst hyz
          rw [if_pos rfl] at h1 h2 ⊢
          exact ih h1 h2
        · subst hxy
          rw [if_pos rfl] at h1
          rw [if_neg hyz] at h2
          rw [if_neg hyz]
          exact h2
        · subst hyz
          rw [if_neg hxy] at h1
          rw [if_pos rfl] at h2
          rw [if_neg hxy]
          exact h1
        · rw [if_neg hxy, decide_eq_true_eq] at h1
          rw [if_neg hyz, decide_eq_true_eq] at h2
          by_cases hxz : x = z
          · subst hxz
            exact (by omega : False).elim
          · rw [if_neg hxz, decide_eq_true_eq]
            omega

theorem strLt_connex : ∀ {a b : List Char},
    strLt a b = false → strLt b a = false → a = b := by
  intro a
  induction a with
  | nil => intro b h1 h2; cases b <;> simp_all [strLt]
  | cons x xs ih =>
    intro b h1 h2
    cases b with
    | nil => simp [strLt] at h2
    | cons y ys =>
      rw [strLt] at h1 h2
      by_cases hxy : x = y
      · subst hxy
        rw [if_pos rfl] at h1 h2
        rw [ih h1 h2]
      · have hyx : ¬ (y = x) := fun hh => hxy hh.symm
        rw [if_neg hxy, decide_eq_false_iff_not] at h1
        rw [if_neg hyx, decide_eq_false_iff_not] at h2
        exact absurd (char_toNat_inj (by omega)) hxy

/-- The path order is total. -/
theorem pathLe_total (a b : Entry) : pathLe a b = true ∨ pathLe b a = true := by
  rw [pathLe, pathLe]
  by_cases h : strLt (pathStr b).data (pathStr a).data = true
  · right; rw [strLt_asymm h]; rfl
  · left; rw [Bool.not_eq_true] at h; rw [h]; rfl

/-- The path order is transitive. -/
theorem pathLe_trans {a b c : Entry} (h1 : pathLe a b = true) (h2 : pathLe b c = true) :
    pathLe a c = true := by
  rw [pathLe, Bool.not_eq_true'] at h1 h2 ⊢
  by_cases hca : strLt (pathStr c).data (pathStr a).data = true
  · exfalso
    by_cases hbc : strLt (pathStr b).data (pathStr c).data = true
    · rw [strLt_trans hbc hca] at h1; cases h1
    · rw [Bool.not_eq_true] at hbc
      have hcb : (pathStr c).data = (pathStr b).data := strLt_connex h2 hbc
      rw [hcb] at hca
      rw [hca] at h1
      cases h1
  · rwa [Bool.not_eq_true] at hca

theorem insertByPath_perm (e : Entry) :
    ∀ l : List Entry, (insertByPath e l).Perm (e :: l) := by
  intro l
  induction l with
  | nil => simp [insertByPath]
  | cons x xs ih =>
    rw [insertByPath]
    by_cases h : pathLe e x = true
    · simp [h]
    · simp only [h, if_neg, Bool.false_eq_true, not_false_eq_true]
      exact (List.Perm.cons x ih).trans (List.Perm.swap e x xs)

theorem sortByPath_perm : ∀ l : List Entry, (sortByPath l).Perm l := by
  intro l
  induction l with
  | nil => simp [sortByPath]
  | cons x xs ih =>
    rw [sortByPath]
    exact ((insertByPath_perm x (sortByPath xs)).trans (List.Perm.cons x ih))

theorem insertByPath_sorted (e : Entry) :
    ∀ l : List Entry, l.Pairwise (fun a b => pathLe a b = true) →
      (insertByPath e l).Pairwise (fun a b => pathLe a b = true) := by
  intro l
  induction l with
  | nil => intro _; simp [insertByPath]
  | cons x xs ih =>
    intro h
    rw [List.pairwise_cons] at h
    rw [insertByPath]
    by_cases hex : pathLe e x = true
    · rw [if_pos hex]
      rw [List.pairwise_cons]
      refine ⟨?_, List.pairwise_cons.mpr h⟩
      intro y hy
      rcases List.mem_cons.mp hy with rfl | hy2
      · exact hex
      · exact pathLe_trans hex (h.1 y hy2)
    · rw [if_neg hex]
      have hxe : pathLe x e = true := by
        rcases pathLe_total e x with h2 | h2
        · exact absurd h2 hex
        · exact h2
      rw [List.pairwise_cons]
      refine ⟨?_, ih h.2⟩
      intro y hy
      have := (insertByPath_perm e xs).mem_iff.mp hy
      rcases List.mem_cons.mp this with rfl | hy2
      · exact hxe
      · exact h.1 y hy2

theorem sortByPath_sorted : ∀ l : List Entry,
    (sortByPath l).Pairwise (fun a b => pathLe a b = true) := by
  intro l
  induction l with
  | nil => simp [sortByPath]
  | cons x xs ih => exact insertByPath_sorted x (sortByPath xs) ih

/-! ### GLOB matcher lemmas (toward C1) -/

theorem classLoop_rest_lt {ch : Char} :
    ∀ (n : Nat) (l : List Char), l.length ≤ n → ∀ (seen : Bool) (prior : Option Char)
      (b : Bool) (rest : List Char),
      classLoop ch l seen prior = some (b, rest) → rest.length < l.length := by
  intro n
  induction n with
  | zero =>
    intro l hl seen prior b rest h
    have : l = [] := List.length_eq_zero.mp (Nat.le_zero.mp hl)
    subst this
    simp [classLoop] at h
  | succ n ih =>
    intro l hl seen prior b rest h
    rw [classLoop.eq_def] at h
    split at h
    · cases h
    · rename_i tl
      obtain ⟨rfl, rfl⟩ : seen = b ∧ tl = rest := by
        simpa using h
      simp
    · rename_i hi rest2 lo
      rw [List.length_cons, List.length_cons] at hl ⊢
      split at h
      · have := ih (hi :: rest2) (by simpa using Nat.le_of_succ_le_succ hl) _ _ _ _ h
        rw [List.length_cons] at this
        omega
      · have := ih rest2 (by omega) _ _ _ _ h
        omega
    · rename_i c tl hne1 hne2
      rw [List.length_cons] at hl ⊢
      have := ih tl (by omega) _ _ _ _ h
      omega

theorem classInv_len (p : List Char) : (classInv p).2.length ≤ p.length := by
  rw [classInv.eq_def]
  split <;> simp

theorem classFirst_len (ch : Char) (p : List Char) :
    (classFirst ch p).2.length ≤ p.length := by
  rw [classFirst.eq_def]
  split <;> simp

theorem classMatch_rest_lt {ch : Char} {p prest : List Char} {ok : Bool}
    (h : classMatch ch p = some (ok, prest)) : prest.length < p.length := by
  rw [classMatch] at h
  have hinv2 := classInv_len p
  have hfst2 := classFirst_len ch (classInv p).2
  cases hcl : classLoop ch (classFirst ch (classInv p).2).2
      (classFirst ch (classInv p).2).1 none with
  | none => rw [hcl] at h; cases h
  | some pr =>
    rw [hcl] at h
    obtain ⟨b2, rest2⟩ := pr
    simp only [Option.some.injEq, Prod.mk.injEq] at h
    have hlt := classLoop_rest_lt (classFirst ch (classInv p).2).2.length
      (classFirst ch (classInv p).2).2 (Nat.le_refl _) _ _ _ _ hcl
    rw [h.2] at hlt
    omega

theorem globMatchF_congr :
    ∀ (f1 : Nat), ∀ (f2 : Nat) (p s : List Char),
      p.length + s.length < f1 → p.length + s.length < f2 →
      globMatchF f1 p s = globMatchF f2 p s := by
  intro f1
  induction f1 with
  | zero => intro f2 p s h1 _; omega
  | succ n ih =>
    intro f2 p s h1 h2
    cases f2 with
    | zero => omega
    | succ m =>
      cases p with
      | nil => rfl
      | cons c pt =>
        rw [List.length_cons] at h1 h2
        simp only [globMatchF]
        by_cases hc1 : c = '*'
        · rw [if_pos hc1, if_pos hc1]
          have he1 : globMatchF n pt s = globMatchF m pt s :=
            ih m pt s (by omega) (by omega)
          rw [he1]
          cases s with
          | nil => rfl
          | cons ch s2 =>
            rw [List.length_cons] at h1 h2
            dsimp only
            have he2 : globMatchF n (c :: pt) s2 = globMatchF m (c :: pt) s2 :=
              ih m (c :: pt) s2 (by simp; omega) (by simp; omega)
            rw [he2]
        · rw [if_neg hc1, if_neg hc1]
          by_cases hc2 : c = '?'
          · rw [if_pos hc2, if_pos hc2]
            cases s with
            | nil => rfl
            | cons ch s2 =>
              rw [List.length_cons] at h1 h2
              dsimp only
              exact ih m pt s2 (by omega) (by omega)
          · rw [if_neg hc2, if_neg hc2]
            by_cases hc3 : c = '['
            · rw [if_pos hc3, if_pos hc3]
              cases s with
              | nil => rfl
              | cons ch s2 =>
                rw [List.length_cons] at h1 h2
                dsimp only
                cases hcm : classMatch ch pt with
                | none => rfl
                | some pr =>
                  obtain ⟨ok, prest⟩ := pr
                  dsimp only
                  have hlt := classMatch_rest_lt hcm
                  have he3 : globMatchF n prest s2 = globMatchF m prest s2 :=
                    ih m prest s2 (by omega) (by omega)
                  rw [he3]
            · rw [if_neg hc3, if_neg hc3]
              cases s with
              | nil => rfl
              | cons ch s2 =>
                rw [List.length_cons] at h1 h2
                dsimp only
                have he4 : globMatchF n pt s2 = globMatchF m pt s2 :=
                  ih m pt s2 (by omega) (by omega)
                rw [he4]

theorem globMatchF_eq {f : Nat} {p s : List Char} (h : p.length + s.length < f) :
    globMatchF f p s = globMatch p s :=
  globMatchF_congr f (p.length + s.length + 1) p s h (by omega)

/-- Characters with no special GLOB meaning in a pattern position. -/
def noMeta (l : List Char) : Bool :=
  l.all (fun c => !(c = '*' || c = '?' || c = '['))

theorem globMatch_cons_lit {c : Char} (p s : List Char)
    (h1 : c ≠ '*') (h2 : c ≠ '?') (h3 : c ≠ '[') :
    globMatch (c :: p) (c :: s) = globMatch p s := by
  have hpeel : (c :: p).length + (c :: s).length + 1 = (p.length + s.length + 2) + 1 := by
    simp [List.length_cons]
    omega
  rw [globMatch, hpeel]
  simp only [globMatchF]
  rw [if_neg h1, if_neg h2, if_neg h3]
  simp [globMatchF_eq (show p.length + s.length < p.length + s.length + 2 by omega)]

theorem globMatch_lit_prefix :
    ∀ (lit : List Char), noMeta lit = true →
      ∀ (p s : List Char), globMatch (lit ++ p) (lit ++ s) = globMatch p s := by
  intro lit
  induction lit with
  | nil => intro _ p s; rfl
  | cons c rest ih =>
    intro hm p s
    rw [noMeta, List.all_cons, Bool.and_eq_true] at hm
    obtain ⟨hc, hrest⟩ := hm
    simp only [Bool.not_eq_eq_eq_not, Bool.not_true, Bool.or_eq_false_iff,
      decide_eq_false_iff_not] at hc
    rw [List.cons_append, List.cons_append,
      globMatch_cons_lit _ _ hc.1.1 hc.1.2 hc.2]
    exact ih hrest p s

theorem globMatchF_star_aux :
    ∀ (s : List Char) (f : Nat), s.length + 1 < f → globMatchF f ['*'] s = true := by
  intro s
  induction s with
  | nil =>
    intro f hf
    cases f with
    | zero => omega
    | succ f2 =>
      cases f2 with
      | zero => omega
      | succ f3 => simp [globMatchF]
  | cons ch s2 ih =>
    intro f hf
    cases f with
    | zero => omega
    | succ f2 =>
      simp only [globMatchF, if_pos rfl]
      rw [List.length_cons] at hf
      rw [ih f2 (by omega)]
      simp

/-- A trailing `*` matches any remaining string. -/
theorem globMatch_star (s : List Char) : globMatch ['*'] s = true :=
  globMatchF_star_aux s (1 + s.length + 1) (by omega)

theorem isDigit_toNat {c : Char} (h : c.isDigit = true) :
    '0'.toNat ≤ c.toNat ∧ c.toNat ≤ '9'.toNat := by
  rw [Char.isDigit, Bool.and_eq_true, decide_eq_true_eq, decide_eq_true_eq] at h
  obtain ⟨h1, h2⟩ := h
  have h1v : '0'.val ≤ c.val := h1
  have h2v : c.val ≤ '9'.val := h2
  exact ⟨BitVec.le_def.mp (UInt32.le_def.mp h1v), BitVec.le_def.mp (UInt32.le_def.mp h2v)⟩

theorem globMatch_sep_class (ch : Char) (p s : List Char) (hsep : isSep ch = true) :
    globMatch ('[' :: '.' :: '_' :: '-' :: ']' :: p) (ch :: s) = globMatch p s := by
  have hpeel : ('[' :: '.' :: '_' :: '-' :: ']' :: p).length + (ch :: s).length + 1
      = (p.length + s.length + 6) + 1 := by simp; omega
  have hcm : classMatch ch ('.' :: '_' :: '-' :: ']' :: p) =
      some (((ch = '.') || (ch = '_')) || (ch = '-'), p) := by
    simp [classMatch, classInv, classFirst, classLoop]
  have hs2 : (((ch = '.') || (ch = '_')) || (ch = '-') : Bool) = true := by
    rcases isSep_elim hsep with h | h | h <;> simp [h]
  rw [globMatch, hpeel]
  simp only [globMatchF, hcm, hs2]
  simp [globMatchF_eq (show p.length + s.length < p.length + s.length + 6 by omega)]

theorem globMatch_digit_class (ch : Char) (p s : List Char) (hd : ch.isDigit = true) :
    globMatch ('[' :: '0' :: '-' :: '9' :: ']' :: p) (ch :: s) = globMatch p s := by
  have hpeel : ('[' :: '0' :: '-' :: '9' :: ']' :: p).length + (ch :: s).length + 1
      = (p.length + s.length + 6) + 1 := by simp; omega
  have hcm : classMatch ch ('0' :: '-' :: '9' :: ']' :: p) =
      some ((ch = '0') ||
        (decide ('0'.toNat ≤ ch.toNat) && decide (ch.toNat ≤ '9'.toNat)), p) := by
    simp [classMatch, classInv, classFirst, classLoop]
  have hs2 : ((ch = '0') ||
      (decide ('0'.toNat ≤ ch.toNat) && decide (ch.toNat ≤ '9'.toNat)) : Bool) = true := by
    obtain ⟨hlo, hhi⟩ := isDigit_toNat hd
    simp only [Bool.or_eq_true, Bool.and_eq_true, decide_eq_true_eq]
    exact Or.inr ⟨hlo, hhi⟩
  rw [globMatch, hpeel]
  simp only [globMatchF, hcm, hs2]
  simp [globMatchF_eq (show p.length + s.length < p.length + s.length + 6 by omega)]

/-- The suffix shape of the sibling pattern matches a separator followed
by at least three digits and then anything (extension included). -/
theorem suffix_glob_match (sep : Char) (digits ext : List Char)
    (hsep : isSep sep = true) (hdig : digits.all Char.isDigit = true)
    (h3 : 3 ≤ digits.length) :
    globMatch "[._-][0-9][0-9][0-9]*".data (sep :: (digits ++ ext)) = true := by
  match digits, h3 with
  | d0 :: d1 :: d2 :: drest, _ =>
    rw [List.all_cons, List.all_cons, List.all_cons, Bool.and_eq_true, Bool.and_eq_true,
      Bool.and_eq_true] at hdig
    obtain ⟨h0, h1, h2, _⟩ := hdig
    rw [show "[._-][0-9][0-9][0-9]*".data =
      '[' :: '.' :: '_' :: '-' :: ']' ::
        '[' :: '0' :: '-' :: '9' :: ']' ::
        '[' :: '0' :: '-' :: '9' :: ']' ::
        '[' :: '0' :: '-' :: '9' :: ']' :: '*' :: [] from rfl]
    rw [globMatch_sep_class sep _ _ hsep]
    rw [show (d0 :: d1 :: d2 :: drest) ++ ext = d0 :: d1 :: d2 :: (drest ++ ext) from rfl]
    rw [globMatch_digit_class d0 _ _ h0, globMatch_digit_class d1 _ _ h1,
      globMatch_digit_class d2 _ _ h2]
    exact globMatch_star (drest ++ ext)

/-- A group member's path matches the sibling GLOB pattern built from its
parent directory and base (when parent and base contain no GLOB
metacharacters). -/
theorem member_glob (par base : String) (e : Entry) (sep : Char) (digits : List Char)
    (hmpar : noMeta par.data = true) (hmbase : noMeta base.data = true)
    (hsep : isSep sep = true) (hdig : digits.all Char.isDigit = true)
    (h3 : 3 ≤ digits.length)
    (hparent : e.parent = par)
    (hstem : e.stem.data = base.data ++ sep :: digits) :
    globMatch (globPattern par base).data (pathStr e).data = true := by
  by_cases hbare : par = "." ∨ par = ""
  · have hpat : (globPattern par base).data =
        base.data ++ "[._-][0-9][0-9][0-9]*".data := by
      rw [globPattern]
      rcases hbare with h | h <;> simp [h, String.data_append]
    have hpath : (pathStr e).data = base.data ++ (sep :: (digits ++ e.ext.data)) := by
      rw [pathStr, hparent]
      rcases hbare with h | h <;> simp [h, String.data_append, hstem]
    rw [hpat, hpath, globMatch_lit_prefix base.data hmbase]
    exact suffix_glob_match sep digits e.ext.data hsep hdig h3
  · push_neg at hbare
    obtain ⟨hdot, hemp⟩ := hbare
    have hpat : (globPattern par base).data =
        (par.data ++ '/' :: base.data) ++ "[._-][0-9][0-9][0-9]*".data := by
      rw [globPattern]
      simp [hdot, hemp, String.data_append]
    have hpath : (pathStr e).data =
        (par.data ++ '/' :: base.data) ++ (sep :: (digits ++ e.ext.data)) := by
      rw [pathStr, hparent]
      simp [hdot, hemp, String.data_append, hstem]
    have hlit : noMeta (par.data ++ '/' :: base.data) = true := by
      rw [noMeta, List.all_append, List.all_cons]
      rw [noMeta] at hmpar hmbase
      rw [hmpar, hmbase]
      rfl
    rw [hpat, hpath, globMatch_lit_prefix _ hlit]
    exact suffix_glob_match sep digits e.ext.data hsep hdig h3

/-- A record of the claimed sequence group: same parent directory and
extension, and a stem the sequence regex splits as the given base plus a
separator and a 3-6-digit run. -/
def memberShape (par base ext : String) (m : Entry) : Bool :=
  m.parent = par && m.ext = ext &&
    (match seqMatch m.stem.data with
     | some (b, _) => b = base.data
     | none => false)

theorem memberShape_elim {par base ext : String} {m : Entry}
    (h : memberShape par base ext m = true) :
    m.parent = par ∧ m.ext = ext ∧
      ∃ c d, isSep c = true ∧ d.all Char.isDigit = true ∧ 3 ≤ d.length ∧
        m.stem.data = base.data ++ c :: d ∧
        seqMatch m.stem.data = some (base.data, d) := by
  rw [memberShape, Bool.and_eq_true, Bool.and_eq_true] at h
  obtain ⟨⟨hp, he⟩, hm⟩ := h
  rw [decide_eq_true_eq] at hp he
  cases hsm : seqMatch m.stem.data with
  | none => rw [hsm] at hm; cases hm
  | some bd =>
    obtain ⟨b, d⟩ := bd
    rw [hsm] at hm
    simp only [decide_eq_true_eq] at hm
    subst hm
    obtain ⟨c, hc1, hc2, hc3, _, hc5⟩ := seqMatch_eq_some_iff.mp hsm
    exact ⟨hp, he, c, d, hc1, hc2, hc3, hc5, rfl⟩

/-- C1 (amended): for a set of N >= 2 records sharing parent directory,
base name and extension, each with a separator plus 3-6-digit numeric
suffix (the regex shape), with no GLOB metacharacters in parent or base,
and such that every store record matching the server-side pattern
`parent/base[._-][0-9][0-9][0-9]*` is one of them, a cold-cache
`get_complete_sequence` on any member returns all N records ordered by
path.  The server-side pattern combines only the parent directory and
base name (not the extension) and is constrained to a separator plus
three digits followed by a wildcard, not to the full 3-6-digit shape. -/
theorem c1_sequence_query_complete (st : RegState) (store : Store)
    (par base ext : String) (entry : Entry)
    (hcold : alLookup entry.id st.seqCache = none)
    (hexc : store.queryExc = false)
    (hmpar : noMeta par.data = true) (hmbase : noMeta base.data = true)
    (hmem : entry ∈ store.entries)
    (hshape : memberShape par base ext entry = true)
    (hN : 2 ≤ (store.entries.filter (memberShape par base ext)).length)
    (hglob : ∀ r ∈ store.entries,
      globMatch (globPattern par base).data (pathStr r).data = true →
      memberShape par base ext r = true) :
    (getCompleteSequence st store entry).1.Perm
        (store.entries.filter (memberShape par base ext)) ∧
    (getCompleteSequence st store entry).1.Pairwise (fun a b => pathLe a b = true) := by
  obtain ⟨hpar, hext, c, d, hc1, hc2, hc3, hc5, hsm⟩ := memberShape_elim hshape
  have hfil : store.entries.filter
      (fun r => globMatch (globPattern par base).data (pathStr r).data) =
      store.entries.filter (memberShape par base ext) := by
    apply List.filter_congr
    intro r hr
    by_cases hg : globMatch (globPattern par base).data (pathStr r).data = true
    · rw [hg, hglob r hr hg]
    · rw [Bool.not_eq_true] at hg
      rw [hg]
      by_cases hs : memberShape par base ext r = true
      · obtain ⟨hp2, he2, c2, d2, hx1, hx2, hx3, hx5, _⟩ := memberShape_elim hs
        have hgm := member_glob par base r c2 d2 hmpar hmbase hx1 hx2 hx3 hp2 hx5
        rw [hgm] at hg
        cases hg
      · rw [Bool.not_eq_true] at hs
        rw [hs]
  have hmk : String.mk base.data = base := by
    cases base
    rfl
  have hq : querySiblings store entry (String.mk base.data) =
      sortByPath (store.entries.filter (memberShape par base ext)) := by
    rw [hmk, querySiblings, hpar, Store.globQuery,
      if_neg (by rw [hexc]; exact Bool.false_ne_true), Store.globList, hfil]
  have hlen : (sortByPath (store.entries.filter (memberShape par base ext))).length =
      (store.entries.filter (memberShape par base ext)).length :=
    (sortByPath_perm _).length_eq
  have hne : ¬ (querySiblings store entry (String.mk base.data) = []) := by
    rw [hq]
    intro h0
    rw [h0] at hlen
    simp at hlen
    omega
  have hrun : (getCompleteSequence st store entry).1 =
      sortByPath (store.entries.filter (memberShape par base ext)) := by
    rw [getCompleteSequence, getCompleteSequenceQ, hcold, hsm]
    simp only [hne, if_neg, hq]
    rw [if_neg (hq ▸ hne)]
  rw [hrun]
  exact ⟨sortByPath_perm _, sortByPath_sorted _⟩

/-- C1 (counterexample): two records "shot0001.png" and "shot0002.png" in
the same directory share parent, base and extension and each carries a
3-6-digit numeric suffix, and the store holds nothing else; yet
`get_complete_sequence` on the first returns only the singleton, because
the regex demands a separator before the digits.  The claim requires all
2 records. -/
theorem c1_counterexample :
    (getCompleteSequence (freshReg 10)
        { entries := [⟨1, ".", "shot0001", ".png"⟩, ⟨2, ".", "shot0002", ".png"⟩] }
        ⟨1, ".", "shot0001", ".png"⟩).1 = [⟨1, ".", "shot0001", ".png"⟩] ∧
    ¬ ((getCompleteSequence (freshReg 10)
        { entries := [⟨1, ".", "shot0001", ".png"⟩, ⟨2, ".", "shot0002", ".png"⟩] }
        ⟨1, ".", "shot0001", ".png"⟩).1.length = 2) := by
  decide

/-- C1 (witness). -/
theorem c1_sequence_query_complete_witness :
    (getCompleteSequence (freshReg 10)
        { entries := [⟨1, ".", "s_002", ".png"⟩, ⟨2, ".", "s_001", ".png"⟩] }
        ⟨1, ".", "s_002", ".png"⟩).1.Perm
      (List.filter (memberShape "." "s" ".png")
        [⟨1, ".", "s_002", ".png"⟩, ⟨2, ".", "s_001", ".png"⟩]) ∧
    (getCompleteSequence (freshReg 10)
        { entries := [⟨1, ".", "s_002", ".png"⟩, ⟨2, ".", "s_001", ".png"⟩] }
        ⟨1, ".", "s_002", ".png"⟩).1.Pairwise (fun a b => pathLe a b = true) :=
  c1_sequence_query_complete (freshReg 10)
    { entries := [⟨1, ".", "s_002", ".png"⟩, ⟨2, ".", "s_001", ".png"⟩] }
    "." "s" ".png" ⟨1, ".", "s_002", ".png"⟩
    (by decide) rfl (by decide) (by decide) (by decide) (by decide) (by decide)
    (by decide)

/-! ### Idempotence of `get_complete_sequence` (C8) -/

theorem alLookup_alInsert_self {β : Type} (k : Nat) (v : β) :
    ∀ m : List (Nat × β), alLookup k (alInsert k v m) = some v := by
  intro m
  induction m with
  | nil => simp [alInsert, alLookup]
  | cons kv r ih =>
    obtain ⟨k2, v2⟩ := kv
    rw [alInsert]
    by_cases h : k2 = k
    · rw [if_pos h, alLookup, if_pos rfl]
    · rw [if_neg h, alLookup, if_neg h]
      exact ih

theorem alLookup_alInsert_ne {β : Type} {k k2 : Nat} (v : β) (h : k2 ≠ k) :
    ∀ m : List (Nat × β), alLookup k (alInsert k2 v m) = alLookup k m := by
  intro m
  induction m with
  | nil => simp [alInsert, alLookup, h]
  | cons kv r ih =>
    obtain ⟨k3, v3⟩ := kv
    rw [alInsert]
    by_cases h3 : k3 = k2
    · rw [if_pos h3, alLookup, if_neg h, alLookup, h3, if_neg h]
    · rw [if_neg h3, alLookup, alLookup]
      by_cases h4 : k3 = k
      · rw [if_pos h4, if_pos h4]
      · rw [if_neg h4, if_neg h4]
        exact ih

theorem insertLoop_lookup_not_mem (all : List Nat) :
    ∀ (l : List Nat) (st : RegState) (k : Nat), k ∉ l →
      alLookup k (insertLoop all l st).seqCache = alLookup k st.seqCache := by
  intro l
  induction l with
  | nil => intro st k _; rfl
  | cons x r ih =>
    intro st k hk
    rw [List.mem_cons, not_or] at hk
    rw [insertLoop, ih _ _ hk.2]
    exact alLookup_alInsert_ne all (fun hh => hk.1 hh.symm) st.seqCache

theorem alLookup_insertLoop_mem (all : List Nat) :
    ∀ (l : List Nat) (st : RegState) (k : Nat), k ∈ l →
      alLookup k (insertLoop all l st).seqCache = some all := by
  intro l
  induction l with
  | nil => intro st k hk; cases hk
  | cons x r ih =>
    intro st k hk
    by_cases hkr : k ∈ r
    · rw [insertLoop]
      exact ih _ _ hkr
    · have hkx : k = x := by
        rcases List.mem_cons.mp hk with h | h
        · exact h
        · exact absurd h hkr
      subst hkx
      rw [insertLoop, insertLoop_lookup_not_mem all r _ k hkr]
      exact alLookup_alInsert_self k all st.seqCache

theorem alLookup_addToCache_mem {st : RegState} {ids : List Nat} {k : Nat}
    (hk : k ∈ ids) : alLookup k (addToCache st ids).seqCache = some ids := by
  rw [addToCache]
  exact alLookup_insertLoop_mem ids ids _ k hk

theorem getEntry_of_mem :
    ∀ (l : List Entry), (l.map (fun e => e.id)).Nodup →
      ∀ e ∈ l, l.find? (fun x => x.id = e.id) = some e := by
  intro l
  induction l with
  | nil => intro _ e he; cases he
  | cons x xs ih =>
    intro hnd e he
    rw [List.map_cons, List.nodup_cons] at hnd
    by_cases hid : x.id = e.id
    · rcases List.mem_cons.mp he with rfl | hexs
      · simp [List.find?_cons]
      · exfalso
        apply hnd.1
        rw [hid]
        exact List.mem_map.mpr ⟨e, hexs, rfl⟩
    · rcases List.mem_cons.mp he with rfl | hexs
      · exact absurd rfl hid
      · rw [List.find?_cons, show (decide (x.id = e.id)) = false by simp [hid]]
        exact ih hnd.2 e hexs

theorem map_getEntry_filterMap {store : Store}
    (hnodup : (store.entries.map (fun e => e.id)).Nodup) :
    ∀ seq : List Entry, (∀ e ∈ seq, e ∈ store.entries) →
      ((seq.map (fun e => e.id)).map store.getEntry).filterMap id = seq := by
  intro seq
  induction seq with
  | nil => intro _; rfl
  | cons e r ih =>
    intro hsub
    rw [List.map_cons, List.map_cons, List.filterMap_cons]
    have he : store.getEntry e.id = some e :=
      getEntry_of_mem store.entries hnodup e (hsub e (List.mem_cons_self e r))
    rw [he]
    simp only [id]
    rw [ih (fun x hx => hsub x (List.mem_cons_of_mem e hx))]

theorem mem_sortByPath {e : Entry} : ∀ {l : List Entry}, e ∈ sortByPath l ↔ e ∈ l :=
  fun {l} => (sortByPath_perm l).mem_iff

/-- C8 (amended): on a cold cache entry for the record, with a consistent
store (unique identifiers, the record present) and PROVIDED the record's
parent directory and stem contain no GLOB metacharacters, two successive
calls of `get_complete_sequence` return equal lists and the second call
issues no pattern-match query to the Store: it is served from the
sequence cache via per-identifier `get` lookups only.  Without the
no-metacharacter proviso the guarantee fails (see the counterexample):
the sibling pattern is built from the unescaped base name, so a record
whose own path does not match its own pattern is never cached under its
id and every call re-queries. -/
theorem c8_idempotent_cached (st : RegState) (store : Store) (entry : Entry)
    (hcold : alLookup entry.id st.seqCache = none)
    (hnodup : (store.entries.map (fun e => e.id)).Nodup)
    (hmem : entry ∈ store.entries)
    (hmpar : noMeta entry.parent.data = true)
    (hmstem : noMeta entry.stem.data = true) :
    (getCompleteSequenceQ
        (getCompleteSequenceQ st store entry).1.2 store entry).1.1 =
      (getCompleteSequenceQ st store entry).1.1 ∧
    (getCompleteSequenceQ
        (getCompleteSequenceQ st store entry).1.2 store entry).2 = 0 := by
  have hsingleton : ∀ st2 : RegState,
      st2.seqCache = (addToCache st [entry.id]).seqCache →
      (getCompleteSequenceQ st2 store entry).1.1 = [entry] ∧
      (getCompleteSequenceQ st2 store entry).2 = 0 := by
    intro st2 h2
    have hl : alLookup entry.id st2.seqCache = some [entry.id] := by
      rw [h2]
      exact alLookup_addToCache_mem (List.mem_singleton.mpr rfl)
    rw [getCompleteSequenceQ, hl]
    have he : store.getEntry entry.id = some entry :=
      getEntry_of_mem store.entries hnodup entry hmem
    simp [he]
  cases hm : seqMatch entry.stem.data with
  | none =>
    have h1 : getCompleteSequenceQ st store entry =
        (([entry], addToCache st [entry.id]), 0) := by
      rw [getCompleteSequenceQ, hcold, hm]
    rw [h1]
    exact hsingleton _ rfl
  | some bd =>
    obtain ⟨b, d⟩ := bd
    by_cases hq : querySiblings store entry (String.mk b) = []
    · have h1 : getCompleteSequenceQ st store entry =
          (([entry], addToCache st [entry.id]), 1) := by
        rw [getCompleteSequenceQ, hcold, hm]
        simp [hq]
      rw [h1]
      exact hsingleton _ rfl
    · have h1 : getCompleteSequenceQ st store entry =
          ((querySiblings store entry (String.mk b),
            addToCache st ((querySiblings store entry (String.mk b)).map
              (fun e => e.id))), 1) := by
        rw [getCompleteSequenceQ, hcold, hm]
        simp [hq]
      have hexcf : store.queryExc = false := by
        by_contra hx
        rw [Bool.not_eq_false] at hx
        apply hq
        rw [querySiblings, Store.globQuery, if_pos hx]
      have hqval : querySiblings store entry (String.mk b) =
          sortByPath (store.entries.filter
            (fun e => globMatch (globPattern entry.parent (String.mk b)).data
              (pathStr e).data)) := by
        rw [querySiblings, Store.globQuery,
          if_neg (by rw [hexcf]; exact Bool.false_ne_true), Store.globList]
      have hsub : ∀ e ∈ querySiblings store entry (String.mk b),
          e ∈ store.entries := by
        intro e hein
        rw [hqval] at hein
        exact List.mem_of_mem_filter (mem_sortByPath.mp hein)
      have hself : entry ∈ querySiblings store entry (String.mk b) := by
        obtain ⟨c, hstem2, hsep, hrun⟩ := seqMatch_sound hm
        rw [isFrameRun, Bool.and_eq_true, Bool.and_eq_true, decide_eq_true_eq,
          decide_eq_true_eq] at hrun
        have hmb : noMeta (String.mk b).data = true := by
          have : entry.stem.data = b ++ c :: d := hstem2
          rw [noMeta] at hmstem ⊢
          rw [this, List.all_append, Bool.and_eq_true] at hmstem
          exact hmstem.1
        have hgm := member_glob entry.parent (String.mk b) entry c d hmpar hmb
          hsep hrun.1.1 hrun.1.2 rfl hstem2
        rw [hqval]
        rw [mem_sortByPath]
        exact List.mem_filter.mpr ⟨hmem, hgm⟩
      have hl2 : alLookup entry.id
          (addToCache st ((querySiblings store entry (String.mk b)).map
            (fun e => e.id))).seqCache =
          some ((querySiblings store entry (String.mk b)).map (fun e => e.id)) :=
        alLookup_addToCache_mem (List.mem_map.mpr ⟨entry, hself, rfl⟩)
      rw [h1]
      rw [getCompleteSequenceQ]
      dsimp only
      rw [hl2]
      dsimp only
      constructor
      · exact map_getEntry_filterMap hnodup _ hsub
      · rfl

/-- C8 (witness). -/
theorem c8_idempotent_cached_witness :
    (getCompleteSequenceQ
        (getCompleteSequenceQ (freshReg 10)
          { entries := [⟨1, ".", "s_001", ".png"⟩, ⟨2, ".", "s_002", ".png"⟩] }
          ⟨1, ".", "s_001", ".png"⟩).1.2
        { entries := [⟨1, ".", "s_001", ".png"⟩, ⟨2, ".", "s_002", ".png"⟩] }
        ⟨1, ".", "s_001", ".png"⟩).1.1 =
      (getCompleteSequenceQ (freshReg 10)
        { entries := [⟨1, ".", "s_001", ".png"⟩, ⟨2, ".", "s_002", ".png"⟩] }
        ⟨1, ".", "s_001", ".png"⟩).1.1 ∧
    (getCompleteSequenceQ
        (getCompleteSequenceQ (freshReg 10)
          { entries := [⟨1, ".", "s_001", ".png"⟩, ⟨2, ".", "s_002", ".png"⟩] }
          ⟨1, ".", "s_001", ".png"⟩).1.2
        { entries := [⟨1, ".", "s_001", ".png"⟩, ⟨2, ".", "s_002", ".png"⟩] }
        ⟨1, ".", "s_001", ".png"⟩).2 = 0 :=
  c8_idempotent_cached (freshReg 10)
    { entries := [⟨1, ".", "s_001", ".png"⟩, ⟨2, ".", "s_002", ".png"⟩] }
    ⟨1, ".", "s_001", ".png"⟩ (by decide) (by decide) (by decide) (by decide)
    (by decide)

/-- C8 (counterexample to the original claim): the claim quantifies over
every record, but for the record with stem "a[b_123" (whose `[` is a GLOB
metacharacter) in a store that also holds "a-456.png", the unescaped
sibling pattern `a[b[._-][0-9][0-9][0-9]*` matches the sibling yet not
the record's own path.  The first (cold) call therefore returns and
caches only the sibling's id 2, never the record's own id, so the second
call - with no intervening Store mutation or cache clear - misses the
cache again and issues another pattern-match query: its query count is 1,
not 0. -/
theorem c8_counterexample :
    ((getCompleteSequenceQ (freshReg 10)
        { entries := [⟨1, ".", "a[b_123", ".png"⟩, ⟨2, ".", "a-456", ".png"⟩] }
        ⟨1, ".", "a[b_123", ".png"⟩).1.1.map (fun e => e.id) = [2]) ∧
    (getCompleteSequenceQ
        (getCompleteSequenceQ (freshReg 10)
          { entries := [⟨1, ".", "a[b_123", ".png"⟩, ⟨2, ".", "a-456", ".png"⟩] }
          ⟨1, ".", "a[b_123", ".png"⟩).1.2
        { entries := [⟨1, ".", "a[b_123", ".png"⟩, ⟨2, ".", "a-456", ".png"⟩] }
        ⟨1, ".", "a[b_123", ".png"⟩).2 = 1 := by
  constructor
  · decide
  · decide

/-! ### The cache/ledger bijection and capacity bound (C3) -/

theorem alLookup_isSome_iff {β : Type} (k : Nat) :
    ∀ m : List (Nat × β), (alLookup k m).isSome = true ↔ k ∈ m.map Prod.fst := by
  intro m
  induction m with
  | nil => simp [alLookup]
  | cons kv r ih =>
    obtain ⟨k2, v2⟩ := kv
    rw [alLookup]
    by_cases h : k2 = k
    · simp [h]
    · rw [if_neg h]
      simp only [List.map_cons, List.mem_cons]
      rw [ih]
      constructor
      · exact Or.inr
      · rintro (h2 | h2)
        · exact absurd h2.symm h
        · exact h2

theorem map_fst_alInsert_mem {β : Type} {k : Nat} (v : β) :
    ∀ {m : List (Nat × β)}, k ∈ m.map Prod.fst →
      (alInsert k v m).map Prod.fst = m.map Prod.fst := by
  intro m
  induction m with
  | nil => intro h; cases h
  | cons kv r ih =>
    obtain ⟨k2, v2⟩ := kv
    intro h
    rw [alInsert]
    by_cases h2 : k2 = k
    · rw [if_pos h2, List.map_cons, List.map_cons, h2]
    · rw [if_neg h2, List.map_cons, List.map_cons, ih]
      rcases List.mem_cons.mp h with h3 | h3
      · exact absurd h3.symm h2
      · exact h3

theorem map_fst_alInsert_not_mem {β : Type} {k : Nat} (v : β) :
    ∀ {m : List (Nat × β)}, k ∉ m.map Prod.fst →
      (alInsert k v m).map Prod.fst = m.map Prod.fst ++ [k] := by
  intro m
  induction m with
  | nil => intro _; rfl
  | cons kv r ih =>
    obtain ⟨k2, v2⟩ := kv
    intro h
    rw [List.map_cons, List.mem_cons, not_or] at h
    rw [alInsert, if_neg (fun hh => h.1 hh.symm), List.map_cons, List.map_cons,
      ih h.2, List.cons_append]

theorem alLookup_alErase_self {β : Type} {k : Nat} :
    ∀ {m : List (Nat × β)}, (m.map Prod.fst).Nodup →
      alLookup k (alErase k m) = none := by
  intro m
  induction m with
  | nil => intro _; rfl
  | cons kv r ih =>
    obtain ⟨k2, v2⟩ := kv
    intro hnd
    rw [List.map_cons, List.nodup_cons] at hnd
    rw [alErase]
    by_cases h : k2 = k
    · rw [if_pos h]
      cases hl : alLookup k r with
      | none => rfl
      | some v3 =>
        exfalso
        apply hnd.1
        rw [h]
        exact (alLookup_isSome_iff k r).mp (by rw [hl]; rfl)
    · rw [if_neg h, alLookup, if_neg h]
      exact ih hnd.2

theorem alLookup_alErase_ne {β : Type} {k k2 : Nat} (h : k ≠ k2) :
    ∀ m : List (Nat × β), alLookup k (alErase k2 m) = alLookup k m := by
  intro m
  induction m with
  | nil => rfl
  | cons kv r ih =>
    obtain ⟨k3, v3⟩ := kv
    rw [alErase, alLookup]
    by_cases h3 : k3 = k2
    · rw [if_pos h3, if_neg (by rw [h3]; exact fun hh => h hh.symm)]
    · rw [if_neg h3, alLookup]
      by_cases h4 : k3 = k
      · rw [if_pos h4, if_pos h4]
      · rw [if_neg h4, if_neg h4]
        exact ih

theorem map_fst_alErase_sublist {β : Type} (k : Nat) :
    ∀ m : List (Nat × β), ((alErase k m).map Prod.fst).Sublist (m.map Prod.fst) := by
  intro m
  induction m with
  | nil => exact List.Sublist.refl _
  | cons kv r ih =>
    obtain ⟨k2, v2⟩ := kv
    rw [alErase]
    by_cases h : k2 = k
    · rw [if_pos h, List.map_cons]
      exact List.sublist_cons_of_sublist k2 (List.Sublist.refl _)
    · rw [if_neg h, List.map_cons, List.map_cons]
      exact List.Sublist.cons₂ k2 ih

theorem length_alErase_mem {β : Type} {k : Nat} :
    ∀ {m : List (Nat × β)}, k ∈ m.map Prod.fst →
      (alErase k m).length + 1 = m.length := by
  intro m
  induction m with
  | nil => intro h; cases h
  | cons kv r ih =>
    obtain ⟨k2, v2⟩ := kv
    intro h
    rw [alErase]
    by_cases h2 : k2 = k
    · rw [if_pos h2, List.length_cons]
    · rw [if_neg h2, List.length_cons, List.length_cons, ← ih]
      rcases List.mem_cons.mp h with h3 | h3
      · exact absurd h3.symm h2
      · exact h3

theorem length_alErase_le {β : Type} (k : Nat) :
    ∀ m : List (Nat × β), (alErase k m).length ≤ m.length := by
  intro m
  induction m with
  | nil => exact Nat.le_refl _
  | cons kv r ih =>
    obtain ⟨k2, v2⟩ := kv
    rw [alErase]
    by_cases h : k2 = k
    · rw [if_pos h, List.length_cons]; omega
    · rw [if_neg h, List.length_cons, List.length_cons]; omega

theorem foldl_alErase_lookup_not_mem {k : Nat} :
    ∀ (ks : List Nat) (m : List (Nat × List Nat)), k ∉ ks →
      alLookup k (ks.foldl (fun c k2 => alErase k2 c) m) = alLookup k m := by
  intro ks
  induction ks with
  | nil => intro m _; rfl
  | cons x r ih =>
    intro m hk
    rw [List.mem_cons, not_or] at hk
    rw [List.foldl_cons, ih _ hk.2]
    exact alLookup_alErase_ne hk.1 m

theorem foldl_alErase_keys_nodup :
    ∀ (ks : List Nat) (m : List (Nat × List Nat)), (m.map Prod.fst).Nodup →
      (((ks.foldl (fun c k2 => alErase k2 c) m)).map Prod.fst).Nodup := by
  intro ks
  induction ks with
  | nil => intro m h; exact h
  | cons x r ih =>
    intro m h
    rw [List.foldl_cons]
    exact ih _ (List.Nodup.sublist (map_fst_alErase_sublist x m) h)

theorem foldl_alErase_keys_sublist :
    ∀ (ks : List Nat) (m : List (Nat × List Nat)),
      (((ks.foldl (fun c k2 => alErase k2 c) m)).map Prod.fst).Sublist
        (m.map Prod.fst) := by
  intro ks
  induction ks with
  | nil => intro m; exact List.Sublist.refl _
  | cons x r ih =>
    intro m
    rw [List.foldl_cons]
    exact (ih _).trans (map_fst_alErase_sublist x m)

theorem foldl_alErase_lookup_mem {k : Nat} :
    ∀ (ks : List Nat) (m : List (Nat × List Nat)), (m.map Prod.fst).Nodup →
      k ∈ ks → alLookup k (ks.foldl (fun c k2 => alErase k2 c) m) = none := by
  intro ks
  induction ks with
  | nil => intro m _ hk; cases hk
  | cons x r ih =>
    intro m hnd hk
    rw [List.foldl_cons]
    by_cases hkr : k ∈ r
    · exact ih _ (List.Nodup.sublist (map_fst_alErase_sublist x m) hnd) hkr
    · have hkx : k = x := by
        rcases List.mem_cons.mp hk with h | h
        · exact h
        · exact absurd h hkr
      subst hkx
      rw [foldl_alErase_lookup_not_mem r _ hkr]
      exact alLookup_alErase_self hnd

theorem foldl_alErase_length :
    ∀ (ks : List Nat) (m : List (Nat × List Nat)), ks.Nodup →
      (m.map Prod.fst).Nodup → (∀ k ∈ ks, k ∈ m.map Prod.fst) →
      (ks.foldl (fun c k2 => alErase k2 c) m).length + ks.length = m.length := by
  intro ks
  induction ks with
  | nil => intro m _ _ _; rfl
  | cons x r ih =>
    intro m hknd hmnd hall
    rw [List.nodup_cons] at hknd
    rw [List.foldl_cons, List.length_cons]
    have hx : x ∈ m.map Prod.fst := hall x (List.mem_cons_self x r)
    have hall2 : ∀ k ∈ r, k ∈ (alErase x m).map Prod.fst := by
      intro k hk
      have hne : k ≠ x := fun hh => hknd.1 (hh ▸ hk)
      rw [← alLookup_isSome_iff]
      rw [alLookup_alErase_ne hne]
      exact (alLookup_isSome_iff k m).mpr (hall k (List.mem_cons_of_mem x hk))
    have := ih (alErase x m) hknd.2
      (List.Nodup.sublist (map_fst_alErase_sublist x m) hmnd) hall2
    have hlen := length_alErase_mem hx
    omega

/-- The cache/ledger bijection of the spec: the access ledger has no
duplicates, the cache has no duplicate keys, and ledger membership
coincides with cache key membership. -/
def CacheInv (st : RegState) : Prop :=
  st.accessOrder.Nodup ∧ (st.seqCache.map Prod.fst).Nodup ∧
    (∀ k, k ∈ st.accessOrder ↔ (alLookup k st.seqCache).isSome = true)

theorem CacheInv.length_eq {st : RegState} (h : CacheInv st) :
    st.accessOrder.length = st.seqCache.length := by
  obtain ⟨h1, h2, h3⟩ := h
  have hperm : st.accessOrder.Perm (st.seqCache.map Prod.fst) := by
    rw [List.perm_ext_iff_of_nodup h1 h2]
    intro k
    rw [h3 k, alLookup_isSome_iff]
  have := hperm.length_eq
  rw [this, List.length_map]

theorem evictPhaseSpec_CacheInv {st : RegState} (h : CacheInv st) (n : Nat) :
    CacheInv (evictPhaseSpec st n) := by
  rw [evictPhaseSpec]
  by_cases ho : st.cacheMax < st.seqCache.length + n
  · rw [if_pos ho]
    obtain ⟨h1, h2, h3⟩ := h
    have hsplit := List.take_append_drop (min n st.accessOrder.length) st.accessOrder
    have hdisj : ∀ k, k ∈ st.accessOrder.take (min n st.accessOrder.length) →
        k ∉ st.accessOrder.drop (min n st.accessOrder.length) := by
      have hnd := h1
      rw [← hsplit, List.nodup_append] at hnd
      exact fun k hk1 hk2 => hnd.2.2 hk1 hk2
    refine ⟨List.Nodup.sublist (List.drop_sublist _ _) h1,
      foldl_alErase_keys_nodup _ _ h2, ?_⟩
    intro k
    constructor
    · intro hk
      have hkO : k ∈ st.accessOrder := by
        rw [← hsplit]
        exact List.mem_append.mpr (Or.inr hk)
      have hkT : k ∉ st.accessOrder.take (min n st.accessOrder.length) :=
        fun hh => hdisj k hh hk
      rw [foldl_alErase_lookup_not_mem _ _ hkT]
      exact (h3 k).mp hkO
    · intro hk
      by_cases hkT : k ∈ st.accessOrder.take (min n st.accessOrder.length)
      · rw [foldl_alErase_lookup_mem _ _ h2 hkT] at hk
        cases hk
      · rw [foldl_alErase_lookup_not_mem _ _ hkT] at hk
        have hkO : k ∈ st.accessOrder := (h3 k).mpr hk
        rw [← hsplit] at hkO
        rcases List.mem_append.mp hkO with hh | hh
        · exact absurd hh hkT
        · exact hh
  · rw [if_neg ho]
    exact h

theorem insertStep_CacheInv {st : RegState} (h : CacheInv st) (x : Nat)
    (all : List Nat) :
    CacheInv { st with
      seqCache := alInsert x all st.seqCache,
      accessOrder := if x ∈ st.accessOrder then st.accessOrder
                     else st.accessOrder ++ [x] } := by
  obtain ⟨h1, h2, h3⟩ := h
  by_cases hx : x ∈ st.accessOrder
  · have hxk : x ∈ st.seqCache.map Prod.fst := by
      rw [← alLookup_isSome_iff]
      exact (h3 x).mp hx
    refine ⟨by rw [if_pos hx]; exact h1, ?_, ?_⟩
    · rw [map_fst_alInsert_mem all hxk]
      exact h2
    · intro k
      rw [if_pos hx]
      by_cases hkx : k = x
      · subst hkx
        simp [hx, alLookup_alInsert_self]
      · rw [alLookup_alInsert_ne all (fun hh => hkx hh.symm)]
        exact h3 k
  · have hxk : x ∉ st.seqCache.map Prod.fst := by
      rw [← alLookup_isSome_iff]
      intro hh
      exact hx ((h3 x).mpr hh)
    refine ⟨?_, ?_, ?_⟩
    · rw [if_neg hx, List.nodup_append]
      refine ⟨h1, List.nodup_singleton x, ?_⟩
      intro a ha hb
      rw [List.mem_singleton] at hb
      subst hb
      exact hx ha
    · rw [map_fst_alInsert_not_mem all hxk, List.nodup_append]
      refine ⟨h2, List.nodup_singleton x, ?_⟩
      intro a ha hb
      rw [List.mem_singleton] at hb
      subst hb
      exact hxk ha
    · intro k
      rw [if_neg hx, List.mem_append, List.mem_singleton]
      by_cases hkx : k = x
      · subst hkx
        simp [alLookup_alInsert_self]
      · rw [alLookup_alInsert_ne all (fun hh => hkx hh.symm)]
        constructor
        · rintro (hk | hk)
          · exact (h3 k).mp hk
          · exact absurd hk hkx
        · intro hk
          exact Or.inl ((h3 k).mpr hk)

theorem insertLoop_CacheInv (all : List Nat) :
    ∀ (l : List Nat) (st : RegState), CacheInv st → CacheInv (insertLoop all l st) := by
  intro l
  induction l with
  | nil => intro st h; exact h
  | cons x r ih =>
    intro st h
    rw [insertLoop]
    exact ih _ (insertStep_CacheInv h x all)

theorem addToCache_CacheInv {st : RegState} (h : CacheInv st) (ids : List Nat) :
    CacheInv (addToCache st ids) := by
  rw [addToCache_eq_spec, addToCacheSpec]
  exact insertLoop_CacheInv ids ids _ (evictPhaseSpec_CacheInv h ids.length)

theorem length_alInsert_le {β : Type} (k : Nat) (v : β) :
    ∀ m : List (Nat × β), (alInsert k v m).length ≤ m.length + 1 := by
  intro m
  induction m with
  | nil => simp [alInsert]
  | cons kv r ih =>
    obtain ⟨k2, v2⟩ := kv
    rw [alInsert]
    by_cases h : k2 = k
    · rw [if_pos h, List.length_cons, List.length_cons]
      omega
    · rw [if_neg h, List.length_cons, List.length_cons]
      omega

theorem insertLoop_length (all : List Nat) :
    ∀ (l : List Nat) (st : RegState),
      (insertLoop all l st).seqCache.length ≤ st.seqCache.length + l.length := by
  intro l
  induction l with
  | nil => intro st; simp [insertLoop]
  | cons x r ih =>
    intro st
    rw [insertLoop, List.length_cons]
    have h1 := ih { st with
      seqCache := alInsert x all st.seqCache,
      accessOrder := if x ∈ st.accessOrder then st.accessOrder
                     else st.accessOrder ++ [x] }
    have h2 := length_alInsert_le x all st.seqCache
    simp only at h1
    omega

theorem evictPhaseSpec_length {st : RegState} (h : CacheInv st) (n : Nat)
    (ho : st.cacheMax < st.seqCache.length + n) :
    (evictPhaseSpec st n).seqCache.length + min n st.seqCache.length =
      st.seqCache.length := by
  obtain ⟨h1, h2, h3⟩ := h
  have hlen : st.accessOrder.length = st.seqCache.length :=
    CacheInv.length_eq ⟨h1, h2, h3⟩
  rw [evictPhaseSpec, if_pos ho]
  have htake : (st.accessOrder.take (min n st.accessOrder.length)).length =
      min n st.accessOrder.length := by
    rw [List.length_take]
    omega
  have hnd : (st.accessOrder.take (min n st.accessOrder.length)).Nodup :=
    List.Nodup.sublist (List.take_sublist _ _) h1
  have hall : ∀ k ∈ st.accessOrder.take (min n st.accessOrder.length),
      k ∈ st.seqCache.map Prod.fst := by
    intro k hk
    rw [← alLookup_isSome_iff]
    exact (h3 k).mp (List.mem_of_mem_take hk)
  have := foldl_alErase_length _ st.seqCache hnd h2 hall
  rw [htake] at this
  simp only
  omega

theorem addToCache_length {st : RegState} {ids : List Nat} (h : CacheInv st)
    (hsz : st.seqCache.length ≤ st.cacheMax) (hids : ids.length ≤ st.cacheMax) :
    (addToCache st ids).seqCache.length ≤ st.cacheMax := by
  rw [addToCache_eq_spec, addToCacheSpec]
  have hins := insertLoop_length ids ids (evictPhaseSpec st ids.length)
  by_cases ho : st.cacheMax < st.seqCache.length + ids.length
  · have hev := evictPhaseSpec_length h ids.length ho
    omega
  · have hev : evictPhaseSpec st ids.length = st := by
      rw [evictPhaseSpec, if_neg ho]
    rw [hev] at hins ⊢
    omega

theorem touch_CacheInv {st : RegState} {i : Nat} (h : CacheInv st)
    (hi : (alLookup i st.seqCache).isSome = true) :
    CacheInv { st with accessOrder := st.accessOrder.erase i ++ [i] } := by
  obtain ⟨h1, h2, h3⟩ := h
  refine ⟨?_, h2, ?_⟩
  · rw [List.nodup_append]
    refine ⟨h1.erase i, List.nodup_singleton i, ?_⟩
    intro a ha hb
    rw [List.mem_singleton] at hb
    subst hb
    exact (List.Nodup.not_mem_erase h1) ha
  · intro k
    simp only
    rw [List.mem_append, List.mem_singleton]
    constructor
    · rintro (hk | rfl)
      · exact (h3 k).mp (List.mem_of_mem_erase hk)
      · exact hi
    · intro hk
      by_cases hki : k = i
      · exact Or.inr hki
      · exact Or.inl ((List.mem_erase_of_ne hki).mpr ((h3 k).mpr hk))

theorem querySiblings_length_le (store : Store) (e : Entry) (b : String) :
    (querySiblings store e b).length ≤ store.entries.length := by
  rw [querySiblings, Store.globQuery]
  by_cases hexc : store.queryExc = true
  · simp [hexc]
  · rw [Bool.not_eq_true] at hexc
    simp only [hexc, Bool.false_eq_true, if_neg, if_false]
    rw [Store.globList]
    rw [(sortByPath_perm _).length_eq]
    exact List.length_filter_le _ _

/-- `get_complete_sequence` preserves the cache/ledger bijection,
unconditionally. -/
theorem gcs_CacheInv (store : Store) : GCSPres store CacheInv := by
  intro st e h
  rw [getCompleteSequence, getCompleteSequenceQ]
  cases hl : alLookup e.id st.seqCache with
  | some ids => exact touch_CacheInv h (by rw [hl]; rfl)
  | none =>
    cases hm : seqMatch e.stem.data with
    | none => exact addToCache_CacheInv h [e.id]
    | some bd =>
      obtain ⟨b, d⟩ := bd
      by_cases hq : querySiblings store e (String.mk b) = []
      · simp only [hq, if_pos]
        exact addToCache_CacheInv h [e.id]
      · simp only [hq, if_neg]
        exact addToCache_CacheInv h _

/-- The combined registry invariant for the capacity bound: the bijection,
the size bound, and a pinned capacity large enough for the store. -/
def RegInv (store : Store) (cap : Nat) (st : RegState) : Prop :=
  CacheInv st ∧ st.seqCache.length ≤ st.cacheMax ∧ st.cacheMax = cap ∧
    1 ≤ cap ∧ store.entries.length ≤ cap


theorem gcs_RegInv (store : Store) (cap : Nat) : GCSPres store (RegInv store cap) := by
  intro st e h
  obtain ⟨hc, hsz, hmax, hone, hstore⟩ := h
  have hmax2 : ((getCompleteSequence st store e).2).cacheMax = st.cacheMax :=
    getCompleteSequence_cacheMax st store e
  have hsz2 : ((getCompleteSequence st store e).2).seqCache.length ≤ st.cacheMax := by
    rw [getCompleteSequence, getCompleteSequenceQ]
    cases hl : alLookup e.id st.seqCache with
    | some ids => exact hsz
    | none =>
      cases hm : seqMatch e.stem.data with
      | none =>
        exact addToCache_length hc hsz (by rw [List.length_singleton]; omega)
      | some bd =>
        obtain ⟨b, d⟩ := bd
        by_cases hq : querySiblings store e (String.mk b) = []
        · simp only [hq, if_pos]
          exact addToCache_length hc hsz (by rw [List.length_singleton]; omega)
        · simp only [hq, if_neg]
          refine addToCache_length hc hsz ?_
          rw [List.length_map]
          have := querySiblings_length_le store e (String.mk b)
          omega
  exact ⟨gcs_CacheInv store st e hc, by rw [hmax2]; exact hsz2,
    by rw [hmax2]; exact hmax, hone, hstore⟩

theorem getPageProgressive_pres {store : Store} {P : RegState → Prop}
    (hP : GCSPres store P) (st : RegState) (pn ps est : Nat) (hp : P st) :
    P (getPageProgressive st store pn ps est).2 := by
  rw [getPageProgressive]
  cases alLookup pn st.progCache with
  | some items => exact hp
  | none =>
    rw [getExactPage]
    exact exactLoopF_pres hP exactFuel _ hp

/-- A registry-state property that ignores the progressive cache. -/
def ProgIndep (P : RegState → Prop) : Prop :=
  ∀ (st : RegState) (pc : List (Nat × (List Entry × List (Option Nat)))),
    P st → P { st with progCache := pc }

theorem page_pres {store : Store} {P : RegState → Prop} (hP : GCSPres store P)
    (hind : ProgIndep P) (st : RegState) (pn ps : Nat)
    (filt : Option (Entry → Bool)) (hp : P st) :
    P (getSequenceAwarePage st store pn ps filt).2 := by
  cases filt with
  | some f => exact processEntriesAux_pres hP _ _ hp
  | none =>
    show P (getPageStreaming st store pn ps).2
    have hfin : P (streamLoopF store ps streamFuel (streamStart st ps)).core.reg :=
      streamLoopF_pres hP streamFuel (streamStart st ps) hp
    have hreg1 : P (streamedReg st store ps) := hind _ _ hfin
    rw [getPageStreaming]
    dsimp only
    by_cases hpn : 0 < pn
    · rw [if_pos hpn]
      exact getPageProgressive_pres hP _ pn ps _ hreg1
    · rw [if_neg hpn]
      exact hreg1

/-- The public operations the claim quantifies over. -/
inductive RegOp where
  | gcs (e : Entry)
  | poster (i : Nat)
  | page (pn ps : Nat) (filt : Option (Entry → Bool))
  | clear

/-- The registry state left behind by one public operation. -/
def applyOp (store : Store) (st : RegState) : RegOp → RegState
  | RegOp.gcs e => (getCompleteSequence st store e).2
  | RegOp.poster i => (idsForPoster st store i).2
  | RegOp.page pn ps filt => (getSequenceAwarePage st store pn ps filt).2
  | RegOp.clear => clearCache st

/-- A workload: a sequence of public operations from a given state. -/
def runOps (store : Store) (ops : List RegOp) (st : RegState) : RegState :=
  ops.foldl (applyOp store) st

theorem poster_pres {store : Store} {P : RegState → Prop} (hP : GCSPres store P)
    (st : RegState) (i : Nat) (hp : P st) : P (idsForPoster st store i).2 := by
  rw [idsForPoster]
  cases alLookup i st.seqCache with
  | some ids => exact hp
  | none =>
    cases store.getEntry i with
    | some e => exact hP st e hp
    | none => exact hp

theorem applyOp_pres {store : Store} {P : RegState → Prop} (hP : GCSPres store P)
    (hind : ProgIndep P) (hclear : ∀ st : RegState, P st → P (clearCache st)) :
    ∀ (st : RegState) (op : RegOp), P st → P (applyOp store st op) := by
  intro st op hp
  cases op with
  | gcs e => exact hP st e hp
  | poster i => exact poster_pres hP st i hp
  | page pn ps filt => exact page_pres hP hind st pn ps filt hp
  | clear => exact hclear st hp

theorem runOps_pres {store : Store} {P : RegState → Prop} (hP : GCSPres store P)
    (hind : ProgIndep P) (hclear : ∀ st : RegState, P st → P (clearCache st)) :
    ∀ (ops : List RegOp) (st : RegState), P st → P (runOps store ops st) := by
  intro ops
  induction ops with
  | nil => intro st hp; exact hp
  | cons op rest ih =>
    intro st hp
    exact ih _ (applyOp_pres hP hind hclear st op hp)

theorem CacheInv_empty {st : RegState}
    (h1 : st.seqCache = []) (h2 : st.accessOrder = []) : CacheInv st := by
  refine ⟨by rw [h2]; exact List.nodup_nil, by rw [h1]; exact List.nodup_nil, ?_⟩
  intro k
  rw [h1, h2]
  simp [alLookup]

theorem clearCache_CacheInv (st : RegState) (_ : CacheInv st) :
    CacheInv (clearCache st) :=
  CacheInv_empty rfl rfl

theorem clearCache_RegInv {store : Store} {cap : Nat} (st : RegState)
    (h : RegInv store cap st) : RegInv store cap (clearCache st) := by
  obtain ⟨_, _, hmax, hone, hstore⟩ := h
  exact ⟨CacheInv_empty rfl rfl, by rw [clearCache]; simp, hmax, hone, hstore⟩

/-- C3 (counterexample): with capacity 2 and a store holding the
three-member sequence s_100/s_200/s_300, a single
`get_complete_sequence` bulk-inserts three identifiers: eviction pops
nothing (the ledger is empty) and the cache ends at size 3, above the
configured capacity 2. -/
theorem c3_counterexample :
    (runOps
        { entries := [⟨1, ".", "s_100", ".png"⟩, ⟨2, ".", "s_200", ".png"⟩,
           ⟨3, ".", "s_300", ".png"⟩] }
        [RegOp.gcs ⟨1, ".", "s_100", ".png"⟩] (freshReg 2)).seqCache.length = 3 ∧
    (freshReg 2).cacheMax = 2 ∧ ¬ ((3 : Nat) ≤ 2) := by
  decide

/-- C3 (amended): after any sequence of `get_complete_sequence`,
`ids_for_poster`, page and `clear_cache` operations from a fresh
registry, the access ledger has no duplicates and its length always
equals the cache key count; and PROVIDED the capacity is at least 1 and
the store holds no more records than the capacity (so no single inserted
group can exceed it), neither the cache key count nor the ledger length
ever exceeds the configured capacity.  A single group larger than the
capacity violates the bound (the cache grows to the group size). -/
theorem c3_cache_ledger_invariant (store : Store) (cap : Nat) (ops : List RegOp) :
    (CacheInv (runOps store ops (freshReg cap)) ∧
      (runOps store ops (freshReg cap)).accessOrder.length =
        (runOps store ops (freshReg cap)).seqCache.length) ∧
    (1 ≤ cap → store.entries.length ≤ cap →
      (runOps store ops (freshReg cap)).seqCache.length ≤ cap ∧
      (runOps store ops (freshReg cap)).accessOrder.length ≤ cap) := by
  have hind : ProgIndep CacheInv := fun st pc h => h
  have hinv : CacheInv (runOps store ops (freshReg cap)) :=
    runOps_pres (gcs_CacheInv store) hind clearCache_CacheInv ops (freshReg cap)
      (CacheInv_empty rfl rfl)
  refine ⟨⟨hinv, hinv.length_eq⟩, ?_⟩
  intro hone hstore
  have hind2 : ProgIndep (RegInv store cap) := fun st pc h => h
  have hreg : RegInv store cap (runOps store ops (freshReg cap)) :=
    runOps_pres (gcs_RegInv store cap) hind2 (fun st h => clearCache_RegInv st h)
      ops (freshReg cap)
      ⟨CacheInv_empty rfl rfl, by exact Nat.zero_le _, rfl, hone, hstore⟩
  obtain ⟨hc, hsz, hmax, _, _⟩ := hreg
  have hlen := hinv.length_eq
  constructor
  · omega
  · omega

/-- C3 (witness). -/
theorem c3_cache_ledger_invariant_witness :
    (CacheInv (runOps { entries := [⟨1, ".", "a", ".png"⟩] }
        [RegOp.gcs ⟨1, ".", "a", ".png"⟩] (freshReg 1)) ∧
      (runOps { entries := [⟨1, ".", "a", ".png"⟩] }
        [RegOp.gcs ⟨1, ".", "a", ".png"⟩] (freshReg 1)).accessOrder.length =
        (runOps { entries := [⟨1, ".", "a", ".png"⟩] }
          [RegOp.gcs ⟨1, ".", "a", ".png"⟩] (freshReg 1)).seqCache.length) ∧
    ((runOps { entries := [⟨1, ".", "a", ".png"⟩] }
        [RegOp.gcs ⟨1, ".", "a", ".png"⟩] (freshReg 1)).seqCache.length ≤ 1 ∧
      (runOps { entries := [⟨1, ".", "a", ".png"⟩] }
        [RegOp.gcs ⟨1, ".", "a", ".png"⟩] (freshReg 1)).accessOrder.length ≤ 1) :=
  ⟨(c3_cache_ledger_invariant { entries := [⟨1, ".", "a", ".png"⟩] } 1
      [RegOp.gcs ⟨1, ".", "a", ".png"⟩]).1,
   (c3_cache_ledger_invariant { entries := [⟨1, ".", "a", ".png"⟩] } 1
      [RegOp.gcs ⟨1, ".", "a", ".png"⟩]).2 (by decide) (by decide)⟩
